import Mathlib

/-!
Verification of the TagSoup backend core: a content-addressable image store
with a tag index, AND-filtered cursor pagination, and best-effort thumbnail
derivation.

The development shallowly embeds the Python sources:
  backend/db.py                              (schema, connections)
  backend/repositories/image_repository.py   (Metadata Index)
  backend/services/image_service.py          (Ingestion Pipeline, paging)

Conventions of the embedding:
  - SQLite rows become Lean structures; tables become lists of rows in
    insertion order.
  - SQLite TEXT comparison (BINARY collation) is modelled by codepoint
    order on the string data; ORDER BY is modelled by a deterministic
    insertion sort on that order (SQLite leaves tie order unspecified;
    theorems that depend on order either assume distinct keys or hold for
    any tie order).
  - The streamed upload becomes a function over the list of chunks the
    source reads; the SHA1 digest is an abstract function parameter, since
    only its determinism matters to the claims.
  - try/except becomes totality: a caught exception is a branch, an
    uncaught one an Except.error.
  - File-system effects are tracked in an explicit state record, with
    event counters for blob writes, thumbnail-derivation calls and leaked
    staging files.
-/

namespace TagSoup

/-! ## Text ordering (SQLite BINARY collation on TEXT columns) -/

/-- Codepoint comparison of single characters. -/
def charLtb (a b : Char) : Bool := a.toNat < b.toNat

/-- Lexicographic strict order on character lists. -/
def strLtAux : List Char → List Char → Bool
  | [], [] => false
  | [], _ :: _ => true
  | _ :: _, [] => false
  | a :: as, b :: bs =>
    if charLtb a b then true
    else if charLtb b a then false
    else strLtAux as bs

/-- SQLite `<` on TEXT values. -/
def strLtb (a b : String) : Bool := strLtAux a.data b.data

/-- SQLite `<=` on TEXT values, as the negation of the reversed strict order. -/
def strLeb (a b : String) : Bool := !(strLtb b a)

/-! ## A deterministic model of SQL ORDER BY: insertion sort -/

/-- Insert into a sorted list, in front of the first element the order
allows. -/
def insertLe {α : Type} (le : α → α → Bool) (a : α) : List α → List α
  | [] => [a]
  | b :: l => if le a b then a :: b :: l else b :: insertLe le a l

/-- Insertion sort by a boolean comparison. -/
def sortLe {α : Type} (le : α → α → Bool) : List α → List α
  | [] => []
  | a :: l => insertLe le a (sortLe le l)

/-! ## Data model (backend/db.py)

Table `images (image_id TEXT PRIMARY KEY, mime_type, file_size,
original_file_name)` and table `tags (image_id, tag, PRIMARY KEY
(image_id, tag), FOREIGN KEY ... ON DELETE CASCADE)`. The PRIMARY KEY
constraints appear in theorems as Nodup hypotheses on the corresponding
projections. Note that `init_db` issues PRAGMA foreign_keys = ON only on
its own connection; `get_db_connection` never does, so on every connection
the repository actually uses, the FOREIGN KEY on `tags` is not enforced.
The embedding of the tag operations therefore does not check it. -/

structure ImageRow where
  image_id : String
  mime_type : String
  file_size : Nat
  original_file_name : String
deriving DecidableEq, Repr

instance : Inhabited ImageRow := ⟨⟨"", "", 0, ""⟩⟩

structure TagRow where
  image_id : String
  tag : String
deriving DecidableEq, Repr

structure DB where
  images : List ImageRow
  tags : List TagRow
deriving DecidableEq, Repr

/-- View returned to callers (backend/models/image_info.py). -/
structure ImageInfo where
  id : String
  mime_type : String
  file_size : Nat
  original_filename : String
  tags : List String
deriving DecidableEq, Repr

instance : Inhabited ImageInfo := ⟨⟨"", "", 0, "", []⟩⟩

/-- An uncaught sqlite3 error (a violated uniqueness constraint). -/
inductive SqlError where
  | integrityViolation
deriving DecidableEq, Repr

/-! ## Metadata Index (backend/repositories/image_repository.py) -/

/-- ImageRepository.image_exists: SELECT 1 FROM images WHERE image_id = ?. -/
def image_exists (db : DB) (image_id : String) : Bool :=
  db.images.any (fun r => r.image_id == image_id)

/-- A plain INSERT INTO images: the PRIMARY KEY on image_id makes a
duplicate insert raise, it is not an insert-if-absent. -/
def insertImageRow (db : DB) (r : ImageRow) : Except SqlError DB :=
  if db.images.any (fun r0 => r0.image_id == r.image_id) then
    Except.error SqlError.integrityViolation
  else
    Except.ok { db with images := db.images ++ [r] }

/-- A plain INSERT INTO tags, as used inside save_image (no ON CONFLICT
clause there): a duplicate (image_id, tag) raises. -/
def insertTagRowStrict (db : DB) (t : TagRow) : Except SqlError DB :=
  if db.tags.any (fun t0 => t0.image_id == t.image_id && t0.tag == t.tag) then
    Except.error SqlError.integrityViolation
  else
    Except.ok { db with tags := db.tags ++ [t] }

/-- ImageRepository.save_image: one unconditional INSERT into images, then
one per initial tag; commit happens only at the end, so an error discards
every insert of the call (connection closed without commit = rollback). -/
def save_image (db : DB) (image_id : String) (mime_type : String)
    (file_size : Nat) (original_filename : String) (tags : List String) :
    Except SqlError DB := do
  let db1 ← insertImageRow db ⟨image_id, mime_type, file_size, original_filename⟩
  tags.foldlM (fun d tg => insertTagRowStrict d ⟨image_id, tg⟩) db1

/-- ImageRepository.add_image_tag: INSERT ... ON CONFLICT DO NOTHING.
The conflict clause covers only the (image_id, tag) PRIMARY KEY; the
FOREIGN KEY to images is unenforced on this connection (see above), so the
row is inserted even when no such image exists. -/
def add_image_tag (db : DB) (image_id : String) (tag : String) : DB :=
  if db.tags.any (fun t0 => t0.image_id == image_id && t0.tag == tag) then db
  else { db with tags := db.tags ++ [⟨image_id, tag⟩] }

/-- ImageRepository.delete_image_tag: DELETE FROM tags WHERE image_id = ?
AND tag = ?. -/
def delete_image_tag (db : DB) (image_id : String) (tag : String) : DB :=
  { db with tags := db.tags.filter (fun t0 => !(t0.image_id == image_id && t0.tag == tag)) }

/-- ImageRepository.get_image_tags: SELECT DISTINCT tag FROM tags. -/
def get_image_tags (db : DB) : List String :=
  (db.tags.map (fun t => t.tag)).dedup

/-! ## The tag-filtered page query (ImageRepository.get_images_by_tag) -/

/-- All tag rows of one image, in table order. -/
def tagsOf (db : DB) (image_id : String) : List TagRow :=
  db.tags.filter (fun t => t.image_id == image_id)

/-- The EXISTS subquery of get_images_by_tag: rows of tags for this image
whose tag is IN the required list, grouped by image, kept when
COUNT(DISTINCT tag) equals the length of the required list (an empty group
produces no row, hence the nonemptiness conjunct). -/
def qualifiesTags (db : DB) (tags : List String) (i : ImageRow) : Bool :=
  let matching := ((tagsOf db i.image_id).filter (fun t => tags.contains t.tag)).map
    (fun t => t.tag)
  !matching.isEmpty && (matching.dedup.length == tags.length)

/-- The cursor restriction: original_file_name > cursor when a cursor is
given, no condition otherwise. -/
def cursorOk (cursor : Option String) (i : ImageRow) : Bool :=
  match cursor with
  | none => true
  | some c => strLtb c i.original_file_name

/-- The Python guard `if tags and len(tags) > 0`. -/
def tagFilterActive (tags : Option (List String)) : Bool :=
  match tags with
  | some ts => decide (0 < ts.length)
  | none => false

/-- The tag side of the WHERE predicate: the EXISTS condition when the tag
filter is active, vacuously true otherwise. -/
def qualifies (db : DB) (tags : Option (List String)) (i : ImageRow) : Bool :=
  if tagFilterActive tags then qualifiesTags db (tags.getD []) i else true

/-- The WHERE predicate of the inner id-selection subquery. -/
def eligibleRow (db : DB) (tags : Option (List String)) (cursor : Option String)
    (i : ImageRow) : Bool :=
  qualifies db tags i && cursorOk cursor i

/-- ORDER BY original_file_name on image rows. -/
def imageLeb (a b : ImageRow) : Bool :=
  strLeb a.original_file_name b.original_file_name

/-- The inner subquery: qualifying rows above the cursor, ORDER BY
original_file_name, LIMIT ?. -/
def innerRows (db : DB) (tags : Option (List String)) (cursor : Option String)
    (limit : Nat) : List ImageRow :=
  (sortLe imageLeb (db.images.filter (eligibleRow db tags cursor))).take limit

/-- The id list the IN (...) clause of the outer query receives. -/
def innerIds (db : DB) (tags : Option (List String)) (cursor : Option String)
    (limit : Nat) : List String :=
  (innerRows db tags cursor limit).map (fun i => i.image_id)

/-- Non-strict order on the tag column of a joined row: NULL sorts before
every value, as in SQLite ASC order. -/
def optLeb : Option String → Option String → Bool
  | none, _ => true
  | some _, none => false
  | some x, some y => strLeb x y

/-- Strict counterpart of optLeb. -/
def optLtb : Option String → Option String → Bool
  | none, none => false
  | none, some _ => true
  | some _, none => false
  | some x, some y => strLtb x y

/-- ORDER BY i.original_file_name, t.tag on the joined rows. -/
def rowLeb (a b : ImageRow × Option String) : Bool :=
  if strLtb a.1.original_file_name b.1.original_file_name then true
  else if strLtb b.1.original_file_name a.1.original_file_name then false
  else optLeb a.2 b.2

/-- Strict counterpart of rowLeb. -/
def rowLtb (a b : ImageRow × Option String) : Bool :=
  if strLtb a.1.original_file_name b.1.original_file_name then true
  else if strLtb b.1.original_file_name a.1.original_file_name then false
  else optLtb a.2 b.2

/-- LEFT JOIN tags ON i.image_id = t.image_id, for one image: one row per
tag, or a single NULL-tag row when the image has none. -/
def expandRow (db : DB) (i : ImageRow) : List (ImageRow × Option String) :=
  match tagsOf db i.image_id with
  | [] => [(i, none)]
  | ts => ts.map (fun t => (i, some t.tag))

/-- The outer query: images whose id is IN the inner selection, LEFT JOINed
with their tags, ordered by (original_file_name, tag). -/
def joinRows (db : DB) (ids : List String) : List (ImageRow × Option String) :=
  sortLe rowLeb ((db.images.filter (fun i => ids.contains i.image_id)).flatMap
    (expandRow db))

/-- One step of the Python result-assembly loop: create the dict entry for
an unseen image_id, then append the row tag (when not NULL) to that entry. -/
def addRow (acc : List ImageInfo) (row : ImageRow × Option String) : List ImageInfo :=
  let acc1 :=
    if acc.any (fun info => info.id == row.1.image_id) then acc
    else acc ++ [⟨row.1.image_id, row.1.mime_type, row.1.file_size,
      row.1.original_file_name, []⟩]
  match row.2 with
  | none => acc1
  | some t => acc1.map (fun info =>
      if info.id == row.1.image_id then { info with tags := info.tags ++ [t] }
      else info)

/-- The assembly loop over all joined rows (dict insertion order is
preserved, as in Python). -/
def assembleRows (rows : List (ImageRow × Option String)) : List ImageInfo :=
  rows.foldl addRow []

/-- ImageRepository.get_images_by_tag. -/
def get_images_by_tag (db : DB) (limit : Nat) (tags : Option (List String))
    (cursor : Option String) : List ImageInfo :=
  assembleRows (joinRows db (innerIds db tags cursor limit))

/-! ## Derived descriptions used to state the query theorems -/

/-- The tag labels of one image, sorted: what the assembled ImageInfo is
proved to carry. -/
def imageLabels (db : DB) (image_id : String) : List String :=
  sortLe strLeb ((tagsOf db image_id).map (fun t => t.tag))

/-- The full view of one image the query is proved to return. -/
def imageInfoOf (db : DB) (i : ImageRow) : ImageInfo :=
  ⟨i.image_id, i.mime_type, i.file_size, i.original_file_name,
    imageLabels db i.image_id⟩

/-- The joined rows of one image in their sorted order. -/
def sortedGroup (db : DB) (i : ImageRow) : List (ImageRow × Option String) :=
  sortLe rowLeb (expandRow db i)

/-- The fresh dict entry the assembly loop creates for an unseen image. -/
def baseInfo (i : ImageRow) : ImageInfo :=
  ⟨i.image_id, i.mime_type, i.file_size, i.original_file_name, []⟩

/-- The dict update the assembly loop performs for a non-NULL tag row. -/
def appendTag (x t : String) (info : ImageInfo) : ImageInfo :=
  if info.id == x then { info with tags := info.tags ++ [t] } else info

/-- The entry-creation half of one assembly step. -/
def ensureEntry (acc : List ImageInfo) (i : ImageRow) : List ImageInfo :=
  if acc.any (fun info => info.id == i.image_id) then acc
  else acc ++ [baseInfo i]

/-- The whole qualifying set in pagination order: what a caller paging to
the end is proved to traverse. -/
def qualifyingSorted (db : DB) (tags : Option (List String)) : List ImageRow :=
  sortLe imageLeb (db.images.filter (qualifies db tags))

/-! ## Service layer (backend/services/image_service.py) -/

/-- Pagination response view (backend/models/paginated_images_response.py). -/
structure PaginatedImagesResponse where
  items : List ImageInfo
  next_cursor : Option String
  page_size : Nat
  has_more : Bool
deriving DecidableEq, Repr

/-- The HTTPExceptions the service raises, by site. -/
inductive HttpError where
  | unsupportedType
  | tooLarge
  | invalidPageSize
  | internal
deriving DecidableEq, Repr

/-- Python `tags if tags else None`: an empty list or None becomes None. -/
def normalizeTags (tags : Option (List String)) : Option (List String) :=
  match tags with
  | some ts => if ts.isEmpty then none else some ts
  | none => none

/-- Python `None if not cursor else cursor`: an empty string or None becomes
None. -/
def normalizeCursor (cursor : Option String) : Option String :=
  match cursor with
  | some c => if c == "" then none else some c
  | none => none

/-- ImageService.get_images_info: validate page_size, probe the repository
with limit page_size + 1, truncate and surface a next cursor when the probe
row came back. -/
def get_images_info (db : DB) (page_size : Nat) (tags : Option (List String))
    (cursor : Option String) : Except HttpError PaginatedImagesResponse :=
  if page_size < 1 || 100 < page_size then Except.error HttpError.invalidPageSize
  else
    let items := get_images_by_tag db (page_size + 1) (normalizeTags tags)
      (normalizeCursor cursor)
    if page_size < items.length then
      Except.ok
        { items := items.take page_size
          next_cursor := some ((items.getD (page_size - 1) default).original_filename)
          page_size := page_size
          has_more := true }
    else
      Except.ok
        { items := items
          next_cursor := none
          page_size := page_size
          has_more := false }

/-- The paging loop a caller runs: request a page, and while has_more is
set, pass next_cursor back unmodified; fuel bounds the recursion. -/
def iterate_pages (db : DB) (page_size : Nat) (tags : Option (List String)) :
    Nat → Option String → List PaginatedImagesResponse
  | 0, _ => []
  | fuel + 1, cursor =>
    match get_images_info db page_size tags cursor with
    | Except.error _ => []
    | Except.ok page =>
      if page.has_more then
        page :: iterate_pages db page_size tags fuel page.next_cursor
      else
        [page]

/-! ## Ingestion Pipeline (ImageService.upload_image) -/

/-- The fixed MIME allow-list of image_service.py. -/
def ALLOWED_MIME_TYPES : List String :=
  ["image/jpeg", "image/jpg", "image/png", "image/gif", "image/webp",
   "image/heic", "image/heif", "image/tiff", "image/bmp"]

/-- 50 MB size ceiling. -/
def MAX_FILE_SIZE : Nat := 50 * 1024 * 1024

/-- The streaming loop: each element of chunks is one result of
file.read(8192), a byte list; an empty read ends the stream. The running
size is bumped and checked before the chunk is hashed and written. On
success: the bytes written (= the bytes hashed, hashlib accumulates the
concatenation), the final file_size, and the number of reads performed; on
the TooLarge abort: the number of reads performed, the temp file having
been unlinked before the raise. -/
def readChunks : List (List Nat) → Nat → Nat → List Nat →
    Except Nat (List Nat × Nat × Nat)
  | [], size, consumed, acc => Except.ok (acc, size, consumed)
  | c :: rest, size, consumed, acc =>
    if c.isEmpty then Except.ok (acc, size, consumed)
    else
      let size1 := size + c.length
      if MAX_FILE_SIZE < size1 then Except.error (consumed + 1)
      else readChunks rest size1 (consumed + 1) (acc ++ c)

/-- Cumulative byte count of the first n chunks. -/
def chunkPrefixSize (chunks : List (List Nat)) (n : Nat) : Nat :=
  ((chunks.take n).map (fun c => c.length)).sum

/-- The file-system view the claims observe: blob ids under UPLOAD_DIR,
thumbnail ids under THUMBNAIL_DIR, a counter of shutil.move publications
into the blob store, and a counter of staging temp files left behind
(neither moved nor unlinked). -/
structure FileSystem where
  uploads : List String
  thumbnails : List String
  blobWrites : Nat
  tmpOrphans : Nat
deriving DecidableEq, Repr

/-- Whole-system state: the database plus the file system, plus a counter
of _generate_thumbnail invocations. -/
structure SysState where
  db : DB
  fs : FileSystem
  thumbCalls : Nat
deriving DecidableEq, Repr

/-- ImageService._generate_thumbnail: best effort. thumbFails stands for
the decode/encode raising; the except branch swallows it, so the call
always returns, having written the thumbnail file exactly when it did not
fail. -/
def generate_thumbnail (thumbFails : Bool) (st : SysState) (image_id : String) :
    SysState :=
  let st1 := { st with thumbCalls := st.thumbCalls + 1 }
  if thumbFails then st1
  else
    { st1 with fs.thumbnails :=
        if st1.fs.thumbnails.contains image_id then st1.fs.thumbnails
        else st1.fs.thumbnails ++ [image_id] }

/-- ImageService.upload_image over one request. sha1 abstracts
hashlib.sha1(...).hexdigest() on the accumulated bytes; content_type and
filename are the declared metadata; chunks is the byte stream as read.
Returns the post-call state together with the HTTP outcome. -/
def upload_image (sha1 : List Nat → String) (thumbFails : Bool) (st : SysState)
    (content_type : String) (filename : String) (chunks : List (List Nat)) :
    SysState × Except HttpError ImageInfo :=
  if !(ALLOWED_MIME_TYPES.contains content_type) then
    (st, Except.error HttpError.unsupportedType)
  else
    match readChunks chunks 0 0 [] with
    | Except.error _ =>
      -- temp file written so far is unlinked before the 413 raise
      (st, Except.error HttpError.tooLarge)
    | Except.ok (data, file_size, _) =>
      let image_id := sha1 data
      let blobExists := st.fs.uploads.contains image_id
      -- move the temp file into place unless the blob already exists;
      -- in the dedup case nothing moves or unlinks the temp file
      let st1 :=
        if blobExists then
          { st with fs.tmpOrphans := st.fs.tmpOrphans + 1 }
        else
          { st with
              fs.uploads := st.fs.uploads ++ [image_id]
              fs.blobWrites := st.fs.blobWrites + 1 }
      if image_exists st1.db image_id then
        (st1, Except.ok ⟨image_id, content_type, file_size, filename, []⟩)
      else
        match save_image st1.db image_id content_type file_size filename [] with
        | Except.error _ =>
          -- generic except-branch: a temp file still present (dedup case) is
          -- unlinked, the failed transaction rolled back, then a 500 is raised
          ((if blobExists then st else st1), Except.error HttpError.internal)
        | Except.ok db1 =>
          let st2 := generate_thumbnail thumbFails { st1 with db := db1 } image_id
          (st2, Except.ok ⟨image_id, content_type, file_size, filename, []⟩)

/-! ## Concrete instances used by the witness theorems -/

/-- A small database: three images with pairwise distinct names and ids. -/
def wdb : DB :=
  ⟨[⟨"idc", "image/png", 3, "c1"⟩, ⟨"idb", "image/png", 2, "b1"⟩,
    ⟨"ida", "image/png", 1, "a1"⟩],
   [⟨"idc", "x"⟩, ⟨"idc", "y"⟩, ⟨"ida", "x"⟩]⟩

/-- Two images sharing one original_file_name: the pagination tie-breaker
counterexample. -/
def ddb : DB := ⟨[⟨"a", "m", 1, "n"⟩, ⟨"b", "m", 1, "n"⟩], []⟩

/-- A constant stand-in digest function for witnesses (only determinism of
the digest matters to the claims exercised). -/
def wsha : List Nat → String := fun _ => "h"

/-- The empty system state. -/
def wst0 : SysState := ⟨⟨[], []⟩, ⟨[], [], 0, 0⟩, 0⟩

/-- The state after the first witness upload. -/
def wst1 : SysState :=
  ⟨⟨[⟨"h", "image/png", 1, "f"⟩], []⟩, ⟨["h"], ["h"], 1, 0⟩, 1⟩

/-- The ImageInfo the witness upload returns. -/
def winfo : ImageInfo := ⟨"h", "image/png", 1, "f", []⟩

/-! ## Theorems: the text order is a decidable linear order -/

theorem strLtAux_asymm : ∀ {x y : List Char}, strLtAux x y = true → strLtAux y x = false
  | [], [], h => by simp [strLtAux] at h
  | [], _ :: _, _ => by simp [strLtAux]
  | _ :: _, [], h => by simp [strLtAux] at h
  | a :: as, b :: bs, h => by
    simp only [strLtAux, charLtb] at *
    by_cases hab : a.toNat < b.toNat
    · simp [hab, Nat.lt_asymm hab]
    · by_cases hba : b.toNat < a.toNat
      · simp [hab, hba] at h
      · simp only [hab, hba, if_false, decide_eq_true_eq, if_neg] at *
        exact strLtAux_asymm h

theorem strLtAux_irrefl : ∀ (x : List Char), strLtAux x x = false
  | [] => by simp [strLtAux]
  | a :: as => by
    simp only [strLtAux, charLtb]
    simp [Nat.lt_irrefl, strLtAux_irrefl as]

theorem strLtAux_eq_of_not : ∀ {x y : List Char},
    strLtAux x y = false → strLtAux y x = false → x = y
  | [], [], _, _ => rfl
  | [], _ :: _, h, _ => by simp [strLtAux] at h
  | _ :: _, [], _, h => by simp [strLtAux] at h
  | a :: as, b :: bs, h₁, h₂ => by
    simp only [strLtAux, charLtb] at h₁ h₂
    by_cases hab : a.toNat < b.toNat
    · simp [hab] at h₁
    · by_cases hba : b.toNat < a.toNat
      · simp [hba] at h₂
      · simp only [hab, hba, if_neg, if_false, decide_eq_true_eq] at h₁ h₂
        have hn : a.toNat = b.toNat := by omega
        have hchar : a = b := Char.ext (UInt32.toNat.inj hn)
        have : as = bs := strLtAux_eq_of_not h₁ h₂
        rw [hchar, this]

theorem strLtb_asymm {a b : String} (h : strLtb a b = true) : strLtb b a = false :=
  strLtAux_asymm h

theorem strLtb_irrefl (a : String) : strLtb a a = false := strLtAux_irrefl a.data

theorem strLtb_eq_of_not {a b : String} (h₁ : strLtb a b = false)
    (h₂ : strLtb b a = false) : a = b := by
  have hd : a.data = b.data := strLtAux_eq_of_not h₁ h₂
  cases a
  cases b
  exact congrArg String.mk hd

theorem strLtb_of_ne_of_not {a b : String} (hne : a ≠ b)
    (h : strLtb b a = false) : strLtb a b = true := by
  by_contra hlt
  exact hne (strLtb_eq_of_not (Bool.eq_false_iff.mpr hlt) h)

theorem strLeb_of_lt {a b : String} (h : strLtb a b = true) : strLeb a b = true := by
  simp only [strLeb, strLtb_asymm h]
  rfl

theorem strLeb_total (a b : String) : strLeb a b = false → strLeb b a = true := by
  intro h
  have hba : strLtb b a = true := by
    cases hx : strLtb b a
    · rw [strLeb, hx] at h
      exact absurd h (by decide)
    · rfl
  simp only [strLeb, strLtb_asymm hba]
  rfl

theorem strLtAux_trans : ∀ {x y z : List Char},
    strLtAux x y = true → strLtAux y z = true → strLtAux x z = true
  | _, [], [], _, h2 => by simp [strLtAux] at h2
  | _, _ :: _, [], _, h2 => by simp [strLtAux] at h2
  | [], [], _ :: _, h1, _ => by simp [strLtAux] at h1
  | [], _ :: _, _ :: _, _, _ => by simp [strLtAux]
  | a :: as, [], _ :: _, h1, _ => by simp [strLtAux] at h1
  | a :: as, b :: bs, c :: cs, h1, h2 => by
    simp only [strLtAux, charLtb] at h1 h2 ⊢
    by_cases hab : a.toNat < b.toNat
    · by_cases hbc : b.toNat < c.toNat
      · simp [show a.toNat < c.toNat by omega]
      · by_cases hcb : c.toNat < b.toNat
        · simp [hbc, hcb] at h2
        · have : b.toNat = c.toNat := by omega
          simp [show a.toNat < c.toNat by omega]
    · by_cases hba : b.toNat < a.toNat
      · simp [hab, hba] at h1
      · have hab' : a.toNat = b.toNat := by omega
        by_cases hbc : b.toNat < c.toNat
        · simp [show a.toNat < c.toNat by omega]
        · by_cases hcb : c.toNat < b.toNat
          · simp [hbc, hcb] at h2
          · have hbc' : b.toNat = c.toNat := by omega
            have hac : ¬ a.toNat < c.toNat := by omega
            have hca : ¬ c.toNat < a.toNat := by omega
            simp only [hab, hba, if_neg, if_false, decide_eq_true_eq] at h1
            simp only [hbc, hcb, if_neg, if_false, decide_eq_true_eq] at h2
            simp only [hac, hca, if_neg, if_false, decide_eq_true_eq]
            exact strLtAux_trans h1 h2

theorem strLtb_trans {a b c : String} (h1 : strLtb a b = true)
    (h2 : strLtb b c = true) : strLtb a c = true :=
  strLtAux_trans h1 h2

theorem strLeb_trans {a b c : String} (h1 : strLeb a b = true)
    (h2 : strLeb b c = true) : strLeb a c = true := by
  simp only [strLeb, Bool.not_eq_true'] at h1 h2 ⊢
  cases hca : strLtb c a with
  | false => rfl
  | true =>
    rcases eq_or_ne b c with rfl | hbc
    · rw [hca] at h1; exact h1
    · have hbc' : strLtb b c = true := strLtb_of_ne_of_not hbc h2
      rw [strLtb_trans hbc' hca] at h1
      exact h1

/-! ## Theorems: the insertion sort sorts -/

theorem insertLe_perm {α : Type} (le : α → α → Bool) (a : α) :
    ∀ (l : List α), (insertLe le a l).Perm (a :: l)
  | [] => List.Perm.refl _
  | b :: l => by
    simp only [insertLe]
    by_cases h : le a b
    · simp [h]
    · simp only [h, if_false, Bool.false_eq_true]
      exact ((insertLe_perm le a l).cons b).trans (List.Perm.swap a b l)

theorem sortLe_perm {α : Type} (le : α → α → Bool) :
    ∀ (l : List α), (sortLe le l).Perm l
  | [] => List.Perm.refl _
  | a :: l => (insertLe_perm le a (sortLe le l)).trans ((sortLe_perm le l).cons a)

theorem mem_insertLe {α : Type} {le : α → α → Bool} {a x : α} {l : List α} :
    x ∈ insertLe le a l ↔ x = a ∨ x ∈ l := by
  rw [(insertLe_perm le a l).mem_iff]
  simp

theorem mem_sortLe {α : Type} {le : α → α → Bool} {x : α} {l : List α} :
    x ∈ sortLe le l ↔ x ∈ l :=
  (sortLe_perm le l).mem_iff

theorem pairwise_insertLe {α : Type} {le : α → α → Bool}
    (htot : ∀ x y, le x y = false → le y x = true)
    (htrans : ∀ x y z, le x y = true → le y z = true → le x z = true) (a : α) :
    ∀ {l : List α}, l.Pairwise (fun x y => le x y = true) →
      (insertLe le a l).Pairwise (fun x y => le x y = true)
  | [], _ => by simp [insertLe]
  | b :: l, h => by
    rcases List.pairwise_cons.mp h with ⟨hb, hl⟩
    simp only [insertLe]
    by_cases hab : le a b = true
    · rw [if_pos hab]
      refine List.pairwise_cons.mpr ⟨?_, h⟩
      intro x hx
      rcases List.mem_cons.mp hx with rfl | hx
      · exact hab
      · exact htrans _ _ _ hab (hb x hx)
    · rw [if_neg hab]
      refine List.pairwise_cons.mpr ⟨?_, pairwise_insertLe htot htrans a hl⟩
      intro x hx
      rcases mem_insertLe.mp hx with rfl | hx
      · exact htot _ _ (Bool.eq_false_iff.mpr hab)
      · exact hb x hx

theorem pairwise_sortLe {α : Type} {le : α → α → Bool}
    (htot : ∀ x y, le x y = false → le y x = true)
    (htrans : ∀ x y z, le x y = true → le y z = true → le x z = true) :
    ∀ (l : List α), (sortLe le l).Pairwise (fun x y => le x y = true)
  | [] => List.Pairwise.nil
  | a :: l => pairwise_insertLe htot htrans a (pairwise_sortLe htot htrans l)

/-- A permutation between two lists that are each pairwise-related by an
asymmetric relation is the identity: sortedness plus a strict order pins the
list down. -/
theorem perm_pairwise_eq {α : Type} {R : α → α → Prop}
    (hasymm : ∀ x y, R x y → R y x → False) :
    ∀ {l₁ l₂ : List α}, l₁.Perm l₂ → l₁.Pairwise R → l₂.Pairwise R → l₁ = l₂
  | [], l₂, hp, _, _ => (hp.nil_eq).symm ▸ rfl
  | a :: t₁, l₂, hp, h₁, h₂ => by
    have ha : a ∈ l₂ := hp.mem_iff.mp (List.mem_cons_self a t₁)
    cases l₂ with
    | nil => exact absurd (hp.length_eq) (by simp)
    | cons b t₂ =>
      rcases List.pairwise_cons.mp h₁ with ⟨ha₁, ht₁⟩
      rcases List.pairwise_cons.mp h₂ with ⟨hb₂, ht₂⟩
      have hab : a = b := by
        rcases List.mem_cons.mp ha with rfl | hat₂
        · rfl
        · have hb : b ∈ a :: t₁ := hp.symm.mem_iff.mp (List.mem_cons_self b t₂)
          rcases List.mem_cons.mp hb with rfl | hbt₁
          · rfl
          · exact absurd (hb₂ a hat₂) (fun hba => hasymm _ _ (ha₁ b hbt₁) hba)
      subst hab
      have := perm_pairwise_eq hasymm (hp.cons_inv) ht₁ ht₂
      rw [this]

/-- Sorting commutes with mapping along an order-reflecting embedding. -/
theorem insertLe_map {α β : Type} (le : α → α → Bool) (le' : β → β → Bool)
    (g : α → β) (hg : ∀ a b, le' (g a) (g b) = le a b) (a : α) :
    ∀ (l : List α), insertLe le' (g a) (l.map g) = (insertLe le a l).map g
  | [] => rfl
  | b :: l => by
    simp only [List.map_cons, insertLe, hg]
    by_cases h : le a b = true
    · rw [if_pos h, if_pos h, List.map_cons, List.map_cons]
    · rw [if_neg h, if_neg h, List.map_cons, insertLe_map le le' g hg a l]

theorem sortLe_map {α β : Type} (le : α → α → Bool) (le' : β → β → Bool)
    (g : α → β) (hg : ∀ a b, le' (g a) (g b) = le a b) :
    ∀ (l : List α), sortLe le' (l.map g) = (sortLe le l).map g
  | [] => rfl
  | a :: l => by
    simp only [List.map_cons, sortLe]
    rw [sortLe_map le le' g hg l, insertLe_map le le' g hg]

/-! ## Theorems: properties of the two ORDER BY comparators -/

theorem imageLeb_total : ∀ x y, imageLeb x y = false → imageLeb y x = true :=
  fun x y h => strLeb_total _ _ h

theorem imageLeb_trans : ∀ x y z,
    imageLeb x y = true → imageLeb y z = true → imageLeb x z = true :=
  fun _ _ _ h1 h2 => strLeb_trans h1 h2

theorem optLeb_total : ∀ x y, optLeb x y = false → optLeb y x = true
  | none, _, h => by simp [optLeb] at h
  | some _, none, _ => by simp [optLeb]
  | some a, some b, h => strLeb_total a b h

theorem optLeb_trans : ∀ x y z,
    optLeb x y = true → optLeb y z = true → optLeb x z = true
  | none, _, _, _, _ => by simp [optLeb]
  | some _, none, _, h1, _ => by simp [optLeb] at h1
  | some _, some _, none, _, h2 => by simp [optLeb] at h2
  | some a, some b, some c, h1, h2 => strLeb_trans h1 h2

theorem optLtb_asymm : ∀ {x y}, optLtb x y = true → optLtb y x = false
  | none, none, h => by simp [optLtb] at h
  | none, some _, _ => by simp [optLtb]
  | some _, none, h => by simp [optLtb] at h
  | some a, some b, h => strLtb_asymm h

theorem optLtb_of_leb_of_ne : ∀ {x y}, optLeb x y = true → x ≠ y → optLtb x y = true
  | none, none, _, hne => absurd rfl hne
  | none, some _, _, _ => by simp [optLtb]
  | some _, none, h, _ => by simp [optLeb] at h
  | some a, some b, h, hne => by
    simp only [optLeb] at h
    simp only [optLtb]
    exact strLtb_of_ne_of_not (fun he => hne (by rw [he]))
      (by simpa [strLeb] using h)

theorem rowLeb_intro_lt {a b : ImageRow × Option String}
    (h : strLtb a.1.original_file_name b.1.original_file_name = true) :
    rowLeb a b = true := by
  simp [rowLeb, h]

theorem rowLeb_intro_eq {a b : ImageRow × Option String}
    (h : a.1.original_file_name = b.1.original_file_name)
    (h2 : optLeb a.2 b.2 = true) : rowLeb a b = true := by
  simp [rowLeb, h, strLtb_irrefl, h2]

theorem rowLeb_cases {a b : ImageRow × Option String} (h : rowLeb a b = true) :
    strLtb a.1.original_file_name b.1.original_file_name = true ∨
      (a.1.original_file_name = b.1.original_file_name ∧ optLeb a.2 b.2 = true) := by
  by_cases h1 : strLtb a.1.original_file_name b.1.original_file_name = true
  · exact Or.inl h1
  · by_cases h2 : strLtb b.1.original_file_name a.1.original_file_name = true
    · rw [rowLeb, if_neg h1, if_pos h2] at h
      exact absurd h (by decide)
    · refine Or.inr ⟨strLtb_eq_of_not (Bool.eq_false_iff.mpr h1) (Bool.eq_false_iff.mpr h2), ?_⟩
      rwa [rowLeb, if_neg h1, if_neg h2] at h

theorem rowLtb_intro_lt {a b : ImageRow × Option String}
    (h : strLtb a.1.original_file_name b.1.original_file_name = true) :
    rowLtb a b = true := by
  simp [rowLtb, h]

theorem rowLtb_intro_eq {a b : ImageRow × Option String}
    (h : a.1.original_file_name = b.1.original_file_name)
    (h2 : optLtb a.2 b.2 = true) : rowLtb a b = true := by
  simp [rowLtb, h, strLtb_irrefl, h2]

theorem rowLtb_cases {a b : ImageRow × Option String} (h : rowLtb a b = true) :
    strLtb a.1.original_file_name b.1.original_file_name = true ∨
      (a.1.original_file_name = b.1.original_file_name ∧ optLtb a.2 b.2 = true) := by
  by_cases h1 : strLtb a.1.original_file_name b.1.original_file_name = true
  · exact Or.inl h1
  · by_cases h2 : strLtb b.1.original_file_name a.1.original_file_name = true
    · rw [rowLtb, if_neg h1, if_pos h2] at h
      exact absurd h (by decide)
    · refine Or.inr ⟨strLtb_eq_of_not (Bool.eq_false_iff.mpr h1) (Bool.eq_false_iff.mpr h2), ?_⟩
      rwa [rowLtb, if_neg h1, if_neg h2] at h

theorem rowLeb_total : ∀ x y, rowLeb x y = false → rowLeb y x = true := by
  intro x y h
  by_cases h1 : strLtb x.1.original_file_name y.1.original_file_name = true
  · exact absurd (rowLeb_intro_lt h1) (Bool.eq_false_iff.mp h)
  · by_cases h2 : strLtb y.1.original_file_name x.1.original_file_name = true
    · exact rowLeb_intro_lt h2
    · have he : x.1.original_file_name = y.1.original_file_name :=
        strLtb_eq_of_not (Bool.eq_false_iff.mpr h1) (Bool.eq_false_iff.mpr h2)
      refine rowLeb_intro_eq he.symm (optLeb_total _ _ ?_)
      cases hx : optLeb x.2 y.2
      · rfl
      · exact absurd (rowLeb_intro_eq he hx) (Bool.eq_false_iff.mp h)

theorem rowLeb_trans : ∀ x y z,
    rowLeb x y = true → rowLeb y z = true → rowLeb x z = true := by
  intro x y z h1 h2
  rcases rowLeb_cases h1 with ha | ⟨hae, hal⟩
  · rcases rowLeb_cases h2 with hb | ⟨hbe, _⟩
    · exact rowLeb_intro_lt (strLtb_trans ha hb)
    · exact rowLeb_intro_lt (hbe ▸ ha)
  · rcases rowLeb_cases h2 with hb | ⟨hbe, hbl⟩
    · exact rowLeb_intro_lt (hae ▸ hb)
    · exact rowLeb_intro_eq (hae.trans hbe) (optLeb_trans _ _ _ hal hbl)

theorem rowLtb_asymm {x y : ImageRow × Option String} (h : rowLtb x y = true) :
    rowLtb y x = false := by
  cases hr : rowLtb y x with
  | false => rfl
  | true =>
    exfalso
    rcases rowLtb_cases h with ha | ⟨hae, hal⟩
    · rcases rowLtb_cases hr with hb | ⟨hbe, hbl⟩
      · rw [strLtb_asymm ha] at hb
        exact Bool.noConfusion hb
      · rw [hbe] at ha
        rw [strLtb_irrefl] at ha
        exact Bool.noConfusion ha
    · rcases rowLtb_cases hr with hb | ⟨hbe, hbl⟩
      · rw [hae] at hb
        rw [strLtb_irrefl] at hb
        exact Bool.noConfusion hb
      · rw [optLtb_asymm hal] at hbl
        exact Bool.noConfusion hbl

theorem rowLtb_of_leb_of_keys_ne {x y : ImageRow × Option String}
    (h : rowLeb x y = true)
    (hne : x.1.original_file_name ≠ y.1.original_file_name ∨ x.2 ≠ y.2) :
    rowLtb x y = true := by
  rcases rowLeb_cases h with ha | ⟨hae, hal⟩
  · exact rowLtb_intro_lt ha
  · rcases hne with hn | hn
    · exact absurd hae hn
    · exact rowLtb_intro_eq hae (optLtb_of_leb_of_ne hal hn)

/-! ## Theorems: the ingestion pipeline -/

theorem insertImageRow_eq (db : DB) (r : ImageRow) :
    insertImageRow db r =
      if image_exists db r.image_id then Except.error SqlError.integrityViolation
      else Except.ok { db with images := db.images ++ [r] } := rfl

theorem save_image_no_tags (db : DB) (image_id mime_type : String)
    (file_size : Nat) (original_filename : String)
    (h : image_exists db image_id = false) :
    save_image db image_id mime_type file_size original_filename []
      = Except.ok { db with images :=
          db.images ++ [⟨image_id, mime_type, file_size, original_filename⟩] } := by
  simp only [save_image, insertImageRow_eq, h]
  rfl

theorem image_exists_append_self (db : DB) (r : ImageRow) :
    image_exists { db with images := db.images ++ [r] } r.image_id = true := by
  simp [image_exists]

theorem generate_thumbnail_db (tf : Bool) (st : SysState) (id : String) :
    (generate_thumbnail tf st id).db = st.db := by
  cases tf <;> simp [generate_thumbnail]

theorem generate_thumbnail_uploads (tf : Bool) (st : SysState) (id : String) :
    (generate_thumbnail tf st id).fs.uploads = st.fs.uploads := by
  cases tf <;> simp [generate_thumbnail]

theorem generate_thumbnail_blobWrites (tf : Bool) (st : SysState) (id : String) :
    (generate_thumbnail tf st id).fs.blobWrites = st.fs.blobWrites := by
  cases tf <;> simp [generate_thumbnail]

theorem generate_thumbnail_tmpOrphans (tf : Bool) (st : SysState) (id : String) :
    (generate_thumbnail tf st id).fs.tmpOrphans = st.fs.tmpOrphans := by
  cases tf <;> simp [generate_thumbnail]

theorem generate_thumbnail_calls (tf : Bool) (st : SysState) (id : String) :
    (generate_thumbnail tf st id).thumbCalls = st.thumbCalls + 1 := by
  cases tf <;> simp [generate_thumbnail]

theorem generate_thumbnail_failed (st : SysState) (id : String) :
    (generate_thumbnail true st id).fs.thumbnails = st.fs.thumbnails := by
  simp [generate_thumbnail]

/-- Shape of the call on a disallowed MIME type. -/
theorem upload_shape_badmime {sha1 tf st ct name chunks}
    (hct : ALLOWED_MIME_TYPES.contains ct = false) :
    upload_image sha1 tf st ct name chunks
      = (st, Except.error HttpError.unsupportedType) := by
  rw [upload_image, hct]
  rfl

/-- Shape of the call when the streaming loop aborts. -/
theorem upload_shape_toolarge {sha1 tf st ct name chunks e}
    (hct : ALLOWED_MIME_TYPES.contains ct = true)
    (hread : readChunks chunks 0 0 [] = Except.error e) :
    upload_image sha1 tf st ct name chunks = (st, Except.error HttpError.tooLarge) := by
  rw [upload_image, hct, hread]
  rfl

/-- Shape of the call on fully duplicate content: blob present and row
present. Only the leaked-staging-file counter moves. -/
theorem upload_shape_dedup {sha1 tf st ct name chunks data size k}
    (hct : ALLOWED_MIME_TYPES.contains ct = true)
    (hread : readChunks chunks 0 0 [] = Except.ok (data, size, k))
    (hblob : st.fs.uploads.contains (sha1 data) = true)
    (hex : image_exists st.db (sha1 data) = true) :
    upload_image sha1 tf st ct name chunks
      = ({ st with fs := { st.fs with tmpOrphans := st.fs.tmpOrphans + 1 } },
         Except.ok ⟨sha1 data, ct, size, name, []⟩) := by
  simp only [upload_image, hct, hread, hblob, hex, Bool.not_true, Bool.false_eq_true,
    if_false, if_true]

/-- Shape of the call on first-sight content with the blob also absent:
publish the blob, register the row, derive the thumbnail. -/
theorem upload_shape_first {sha1 tf st ct name chunks data size k}
    (hct : ALLOWED_MIME_TYPES.contains ct = true)
    (hread : readChunks chunks 0 0 [] = Except.ok (data, size, k))
    (hblob : st.fs.uploads.contains (sha1 data) = false)
    (hex : image_exists st.db (sha1 data) = false) :
    upload_image sha1 tf st ct name chunks
      = (generate_thumbnail tf
          { st with
              db := { st.db with images :=
                st.db.images ++ [⟨sha1 data, ct, size, name⟩] }
              fs := { st.fs with
                uploads := st.fs.uploads ++ [sha1 data]
                blobWrites := st.fs.blobWrites + 1 } }
          (sha1 data),
         Except.ok ⟨sha1 data, ct, size, name, []⟩) := by
  simp only [upload_image, hct, hread, hblob, hex, Bool.not_true, Bool.false_eq_true,
    if_false, if_true, save_image_no_tags _ _ _ _ _ hex]

/-- Shape of the call on an orphan blob: blob present, row absent. The
staging file leaks, the row is registered, the thumbnail derived. -/
theorem upload_shape_orphan {sha1 tf st ct name chunks data size k}
    (hct : ALLOWED_MIME_TYPES.contains ct = true)
    (hread : readChunks chunks 0 0 [] = Except.ok (data, size, k))
    (hblob : st.fs.uploads.contains (sha1 data) = true)
    (hex : image_exists st.db (sha1 data) = false) :
    upload_image sha1 tf st ct name chunks
      = (generate_thumbnail tf
          { st with
              db := { st.db with images :=
                st.db.images ++ [⟨sha1 data, ct, size, name⟩] }
              fs := { st.fs with tmpOrphans := st.fs.tmpOrphans + 1 } }
          (sha1 data),
         Except.ok ⟨sha1 data, ct, size, name, []⟩) := by
  simp only [upload_image, hct, hread, hblob, hex, Bool.not_true, Bool.false_eq_true,
    if_false, if_true, save_image_no_tags _ _ _ _ _ hex]

/-- Shape of the call on a blob missing while the row exists (the state the
spec calls self-healing): the blob is republished, nothing else changes. -/
theorem upload_shape_selfheal {sha1 tf st ct name chunks data size k}
    (hct : ALLOWED_MIME_TYPES.contains ct = true)
    (hread : readChunks chunks 0 0 [] = Except.ok (data, size, k))
    (hblob : st.fs.uploads.contains (sha1 data) = false)
    (hex : image_exists st.db (sha1 data) = true) :
    upload_image sha1 tf st ct name chunks
      = ({ st with fs := { st.fs with
            uploads := st.fs.uploads ++ [sha1 data]
            blobWrites := st.fs.blobWrites + 1 } },
         Except.ok ⟨sha1 data, ct, size, name, []⟩) := by
  simp only [upload_image, hct, hread, hblob, hex, Bool.not_true, Bool.false_eq_true,
    if_false, if_true]

/-- Landing facts of every successful upload: the MIME type was allowed,
the stream was read whole, the returned view carries the digest of the
bytes read together with the declared metadata, and afterwards blob and
metadata row for that digest both exist. -/
theorem upload_ok_facts {sha1 : List Nat → String} {tf : Bool} {st st' : SysState}
    {ct name : String} {chunks : List (List Nat)} {info : ImageInfo}
    (h : upload_image sha1 tf st ct name chunks = (st', Except.ok info)) :
    ALLOWED_MIME_TYPES.contains ct = true ∧
    ∃ data size k, readChunks chunks 0 0 [] = Except.ok (data, size, k) ∧
      info = ⟨sha1 data, ct, size, name, []⟩ ∧
      st'.fs.uploads.contains (sha1 data) = true ∧
      image_exists st'.db (sha1 data) = true := by
  cases hct : ALLOWED_MIME_TYPES.contains ct with
  | false =>
    rw [upload_shape_badmime hct] at h
    simp at h
  | true =>
    refine ⟨rfl, ?_⟩
    cases hread : readChunks chunks 0 0 [] with
    | error e =>
      rw [upload_shape_toolarge hct hread] at h
      simp at h
    | ok trip =>
      obtain ⟨data, size, k⟩ := trip
      refine ⟨data, size, k, rfl, ?_⟩
      cases hblob : st.fs.uploads.contains (sha1 data) with
      | true =>
        cases hex : image_exists st.db (sha1 data) with
        | true =>
          rw [upload_shape_dedup hct hread hblob hex] at h
          rw [Prod.mk.injEq, Except.ok.injEq] at h
          obtain ⟨rfl, rfl⟩ := h
          exact ⟨rfl, hblob, hex⟩
        | false =>
          rw [upload_shape_orphan hct hread hblob hex] at h
          rw [Prod.mk.injEq, Except.ok.injEq] at h
          obtain ⟨rfl, rfl⟩ := h
          refine ⟨rfl, ?_, ?_⟩
          · rw [generate_thumbnail_uploads]
            exact hblob
          · rw [generate_thumbnail_db]
            exact image_exists_append_self st.db ⟨sha1 data, ct, size, name⟩
      | false =>
        cases hex : image_exists st.db (sha1 data) with
        | true =>
          rw [upload_shape_selfheal hct hread hblob hex] at h
          rw [Prod.mk.injEq, Except.ok.injEq] at h
          obtain ⟨rfl, rfl⟩ := h
          refine ⟨rfl, ?_, hex⟩
          simp [List.elem_iff]
        | false =>
          rw [upload_shape_first hct hread hblob hex] at h
          rw [Prod.mk.injEq, Except.ok.injEq] at h
          obtain ⟨rfl, rfl⟩ := h
          refine ⟨rfl, ?_, ?_⟩
          · rw [generate_thumbnail_uploads]
            simp [List.elem_iff]
          · rw [generate_thumbnail_db]
            exact image_exists_append_self st.db ⟨sha1 data, ct, size, name⟩

/-- A second identical call after any successful upload takes the full
dedup path: same returned view, and the only state change is one more
leaked staging file. -/
theorem upload_again {sha1 : List Nat → String} {tf1 tf2 : Bool} {st st1 : SysState}
    {ct name : String} {chunks : List (List Nat)} {info1 : ImageInfo}
    (h1 : upload_image sha1 tf1 st ct name chunks = (st1, Except.ok info1)) :
    upload_image sha1 tf2 st1 ct name chunks
      = ({ st1 with fs := { st1.fs with tmpOrphans := st1.fs.tmpOrphans + 1 } },
         Except.ok info1) := by
  obtain ⟨hct, data, size, k, hread, hinfo, hupl, hex⟩ := upload_ok_facts h1
  subst hinfo
  exact upload_shape_dedup hct hread hupl hex

theorem chunkPrefixSize_cons (c : List Nat) (rest : List (List Nat)) (n : Nat) :
    chunkPrefixSize (c :: rest) (n + 1) = c.length + chunkPrefixSize rest n := by
  simp [chunkPrefixSize]

/-- The streaming loop stops at the first chunk that pushes the cumulative
size over the ceiling, reporting how many reads it performed. -/
theorem readChunks_overflow :
    ∀ (chunks : List (List Nat)) (j size consumed : Nat) (acc : List Nat),
    (∀ m, m ≤ j → chunks.getD m [] ≠ []) →
    (∀ m, m < j → size + chunkPrefixSize chunks (m + 1) ≤ MAX_FILE_SIZE) →
    (MAX_FILE_SIZE < size + chunkPrefixSize chunks (j + 1)) →
    readChunks chunks size consumed acc = Except.error (consumed + j + 1)
  | [], j, size, consumed, acc, hne, _, _ => absurd rfl (hne 0 (Nat.zero_le j))
  | c :: rest, 0, size, consumed, acc, hne, _, hover => by
    have hc : c.isEmpty = false := by
      cases c with
      | nil => exact absurd rfl (hne 0 (Nat.le_refl 0))
      | cons x xs => rfl
    rw [readChunks, hc]
    rw [chunkPrefixSize_cons] at hover
    have hbig : MAX_FILE_SIZE < size + c.length := by
      simp [chunkPrefixSize] at hover
      omega
    simp only [Bool.false_eq_true, if_false, hbig, if_true]
  | c :: rest, j + 1, size, consumed, acc, hne, hmin, hover => by
    have hc : c.isEmpty = false := by
      cases c with
      | nil => exact absurd rfl (hne 0 (Nat.zero_le (j + 1)))
      | cons x xs => rfl
    rw [readChunks, hc]
    have hsmall : ¬ MAX_FILE_SIZE < size + c.length := by
      have := hmin 0 (Nat.succ_pos j)
      rw [chunkPrefixSize_cons] at this
      simp [chunkPrefixSize] at this
      omega
    simp only [Bool.false_eq_true, if_false, hsmall]
    have ih := readChunks_overflow rest j (size + c.length) (consumed + 1) (acc ++ c)
      (fun m hm => hne (m + 1) (Nat.succ_le_succ hm))
      (fun m hm => by
        have := hmin (m + 1) (Nat.succ_lt_succ hm)
        rw [chunkPrefixSize_cons] at this
        omega)
      (by
        rw [chunkPrefixSize_cons] at hover
        omega)
    rw [ih]
    have : consumed + 1 + j + 1 = consumed + (j + 1) + 1 := by omega
    rw [this]

/-! ## Theorems: the assembly loop of get_images_by_tag -/

theorem addRow_none (acc : List ImageInfo) (i : ImageRow) :
    addRow acc (i, none) = ensureEntry acc i := rfl

theorem addRow_some (acc : List ImageInfo) (i : ImageRow) (t : String) :
    addRow acc (i, some t) = (ensureEntry acc i).map (appendTag i.image_id t) := rfl

theorem appendTag_id (x t : String) (info : ImageInfo) :
    (appendTag x t info).id = info.id := by
  by_cases h : info.id == x
  · simp [appendTag, h]
  · simp [appendTag, h]

theorem appendTag_tags_sub {x t s : String} {info : ImageInfo}
    (h : s ∈ info.tags) : s ∈ (appendTag x t info).tags := by
  by_cases hx : info.id == x
  · simp only [appendTag, hx, if_true]
    exact List.mem_append_left _ h
  · simpa [appendTag, hx] using h

theorem appendTag_tags_self {x t : String} {info : ImageInfo}
    (h : info.id = x) : t ∈ (appendTag x t info).tags := by
  simp only [appendTag, h, beq_self_eq_true, if_true]
  exact List.mem_append_right _ (List.mem_singleton_self t)

theorem mem_ensureEntry_of_mem {acc : List ImageInfo} {i : ImageRow}
    {info : ImageInfo} (h : info ∈ acc) : info ∈ ensureEntry acc i := by
  by_cases hany : acc.any (fun info => info.id == i.image_id) = true
  · rw [ensureEntry, if_pos hany]; exact h
  · rw [ensureEntry, if_neg hany]; exact List.mem_append_left _ h

theorem ensureEntry_has (acc : List ImageInfo) (i : ImageRow) :
    ∃ info ∈ ensureEntry acc i, info.id = i.image_id := by
  by_cases hany : acc.any (fun info => info.id == i.image_id) = true
  · rw [ensureEntry, if_pos hany]
    obtain ⟨info, hmem, hbeq⟩ := List.any_eq_true.mp hany
    exact ⟨info, hmem, beq_iff_eq.mp hbeq⟩
  · rw [ensureEntry, if_neg hany]
    exact ⟨baseInfo i, List.mem_append_right _ (List.mem_singleton_self _), rfl⟩

theorem mem_of_mem_ensureEntry {acc : List ImageInfo} {i : ImageRow}
    {info : ImageInfo} (h : info ∈ ensureEntry acc i) :
    info ∈ acc ∨ info = baseInfo i := by
  by_cases hany : acc.any (fun info => info.id == i.image_id) = true
  · rw [ensureEntry, if_pos hany] at h; exact Or.inl h
  · rw [ensureEntry, if_neg hany] at h
    rcases List.mem_append.mp h with h | h
    · exact Or.inl h
    · exact Or.inr (List.mem_singleton.mp h)

theorem addRow_persist {acc : List ImageInfo} {row : ImageRow × Option String}
    {id : String} {ot : Option String}
    (h : ∃ info ∈ acc, info.id = id ∧ (∀ s, ot = some s → s ∈ info.tags)) :
    ∃ info ∈ addRow acc row, info.id = id ∧ (∀ s, ot = some s → s ∈ info.tags) := by
  obtain ⟨info, hmem, hid, htags⟩ := h
  obtain ⟨i, o⟩ := row
  cases o with
  | none =>
    rw [addRow_none]
    exact ⟨info, mem_ensureEntry_of_mem hmem, hid, htags⟩
  | some t =>
    rw [addRow_some]
    refine ⟨appendTag i.image_id t info,
      List.mem_map_of_mem _ (mem_ensureEntry_of_mem hmem),
      (appendTag_id _ _ _).trans hid, ?_⟩
    intro s hs
    exact appendTag_tags_sub (htags s hs)

theorem foldl_addRow_persist {id : String} {ot : Option String} :
    ∀ (rows : List (ImageRow × Option String)) (acc : List ImageInfo),
    (∃ info ∈ acc, info.id = id ∧ (∀ s, ot = some s → s ∈ info.tags)) →
    ∃ info ∈ rows.foldl addRow acc, info.id = id ∧ (∀ s, ot = some s → s ∈ info.tags)
  | [], acc, h => h
  | row :: rest, acc, h =>
    foldl_addRow_persist rest (addRow acc row) (addRow_persist h)

theorem addRow_head (acc : List ImageInfo) (i : ImageRow) (o : Option String) :
    ∃ info ∈ addRow acc (i, o), info.id = i.image_id ∧
      (∀ s, o = some s → s ∈ info.tags) := by
  cases o with
  | none =>
    rw [addRow_none]
    obtain ⟨info, hmem, hid⟩ := ensureEntry_has acc i
    exact ⟨info, hmem, hid, fun s hs => Option.noConfusion hs⟩
  | some t =>
    rw [addRow_some]
    obtain ⟨info, hmem, hid⟩ := ensureEntry_has acc i
    refine ⟨appendTag i.image_id t info, List.mem_map_of_mem _ hmem,
      (appendTag_id _ _ _).trans hid, ?_⟩
    intro s hs
    obtain rfl : t = s := Option.some.inj hs
    exact appendTag_tags_self hid

theorem foldl_addRow_covers :
    ∀ (rows : List (ImageRow × Option String)) (acc : List ImageInfo)
      {i : ImageRow} {o : Option String}, (i, o) ∈ rows →
    ∃ info ∈ rows.foldl addRow acc, info.id = i.image_id ∧
      (∀ s, o = some s → s ∈ info.tags)
  | [], _, _, _, h => absurd h (List.not_mem_nil _)
  | row :: rest, acc, i, o, h => by
    rcases List.mem_cons.mp h with rfl | h
    · exact foldl_addRow_persist rest (addRow acc (i, o)) (addRow_head acc i o)
    · exact foldl_addRow_covers rest (addRow acc row) h

theorem addRow_id_from {acc : List ImageInfo} {row : ImageRow × Option String}
    {info : ImageInfo} (h : info ∈ addRow acc row) :
    (∃ i0 ∈ acc, i0.id = info.id) ∨ info.id = row.1.image_id := by
  obtain ⟨i, o⟩ := row
  cases o with
  | none =>
    rw [addRow_none] at h
    rcases mem_of_mem_ensureEntry h with h | rfl
    · exact Or.inl ⟨info, h, rfl⟩
    · exact Or.inr rfl
  | some t =>
    rw [addRow_some] at h
    obtain ⟨info0, hmem0, rfl⟩ := List.mem_map.mp h
    rcases mem_of_mem_ensureEntry hmem0 with h0 | rfl
    · exact Or.inl ⟨info0, h0, (appendTag_id _ _ _).symm⟩
    · exact Or.inr (appendTag_id _ _ _)

theorem foldl_addRow_id_from :
    ∀ (rows : List (ImageRow × Option String)) (acc : List ImageInfo)
      {info : ImageInfo}, info ∈ rows.foldl addRow acc →
    (∃ i0 ∈ acc, i0.id = info.id) ∨ ∃ r ∈ rows, r.1.image_id = info.id
  | [], acc, info, h => Or.inl ⟨info, h, rfl⟩
  | row :: rest, acc, info, h => by
    rcases foldl_addRow_id_from rest (addRow acc row) h with h1 | h1
    · obtain ⟨i0, hi0, hid⟩ := h1
      rcases addRow_id_from hi0 with h2 | h2
      · exact Or.inl (h2.imp (fun x hx => ⟨hx.1, hx.2.trans hid⟩))
      · exact Or.inr ⟨row, List.mem_cons_self _ _, h2 ▸ hid⟩
    · obtain ⟨r, hr, hid⟩ := h1
      exact Or.inr ⟨r, List.mem_cons_of_mem _ hr, hid⟩

theorem ensureEntry_nodup {acc : List ImageInfo} {i : ImageRow}
    (h : (acc.map (fun info => info.id)).Nodup) :
    ((ensureEntry acc i).map (fun info => info.id)).Nodup := by
  by_cases hany : acc.any (fun info => info.id == i.image_id) = true
  · rw [ensureEntry, if_pos hany]; exact h
  · rw [ensureEntry, if_neg hany]
    rw [List.map_append]
    rw [List.nodup_append]
    refine ⟨h, List.nodup_singleton _, ?_⟩
    intro x hx hx1
    obtain ⟨info, hinfo, rfl⟩ := List.mem_map.mp hx
    simp only [List.map_cons, List.map_nil, List.mem_singleton] at hx1
    rw [List.any_eq_true] at hany
    exact hany ⟨info, hinfo, beq_iff_eq.mpr hx1⟩

theorem addRow_nodup {acc : List ImageInfo} {row : ImageRow × Option String}
    (h : (acc.map (fun info => info.id)).Nodup) :
    ((addRow acc row).map (fun info => info.id)).Nodup := by
  obtain ⟨i, o⟩ := row
  cases o with
  | none =>
    rw [addRow_none]
    exact ensureEntry_nodup h
  | some t =>
    rw [addRow_some, List.map_map]
    have : ((ensureEntry acc i).map (fun info => (appendTag i.image_id t info).id))
        = (ensureEntry acc i).map (fun info => info.id) :=
      List.map_congr_left (fun info _ => appendTag_id _ _ _)
    rw [show ((fun info => info.id) ∘ appendTag i.image_id t)
        = fun info => (appendTag i.image_id t info).id from rfl, this]
    exact ensureEntry_nodup h

theorem foldl_addRow_nodup :
    ∀ (rows : List (ImageRow × Option String)) (acc : List ImageInfo),
    (acc.map (fun info => info.id)).Nodup →
    ((rows.foldl addRow acc).map (fun info => info.id)).Nodup
  | [], _, h => h
  | row :: rest, acc, h => foldl_addRow_nodup rest (addRow acc row) (addRow_nodup h)

/-! ## Theorems: the join and the inner selection -/

theorem expandRow_eq_of_nil {db : DB} {i : ImageRow}
    (h : tagsOf db i.image_id = []) : expandRow db i = [(i, none)] := by
  rw [expandRow, h]

theorem expandRow_eq_of_ne {db : DB} {i : ImageRow}
    (h : tagsOf db i.image_id ≠ []) :
    expandRow db i = (tagsOf db i.image_id).map (fun t => (i, some t.tag)) := by
  rw [expandRow]
  cases hts : tagsOf db i.image_id with
  | nil => exact absurd hts h
  | cons t ts => rfl

theorem expandRow_fst {db : DB} {i : ImageRow} {r : ImageRow × Option String}
    (h : r ∈ expandRow db i) : r.1 = i := by
  cases hts : tagsOf db i.image_id with
  | nil =>
    rw [expandRow_eq_of_nil hts] at h
    rw [List.mem_singleton.mp h]
  | cons t ts =>
    rw [expandRow_eq_of_ne (by rw [hts]; exact List.cons_ne_nil t ts)] at h
    obtain ⟨x, _, rfl⟩ := List.mem_map.mp h
    rfl

theorem expandRow_ne_nil (db : DB) (i : ImageRow) : expandRow db i ≠ [] := by
  cases hts : tagsOf db i.image_id with
  | nil => rw [expandRow_eq_of_nil hts]; exact List.cons_ne_nil _ _
  | cons t ts =>
    rw [expandRow_eq_of_ne (by rw [hts]; exact List.cons_ne_nil t ts), hts]
    exact List.cons_ne_nil _ _

theorem expandRow_mem_some {db : DB} {i : ImageRow} {t : String}
    (h : t ∈ (tagsOf db i.image_id).map (fun x => x.tag)) :
    (i, some t) ∈ expandRow db i := by
  obtain ⟨x, hx, rfl⟩ := List.mem_map.mp h
  rw [expandRow_eq_of_ne (List.ne_nil_of_mem hx)]
  exact List.mem_map_of_mem _ hx

theorem mem_joinRows_fst {db : DB} {ids : List String} {r : ImageRow × Option String}
    (h : r ∈ joinRows db ids) :
    r.1 ∈ db.images ∧ ids.contains r.1.image_id = true := by
  rw [joinRows, mem_sortLe, List.mem_flatMap] at h
  obtain ⟨i, hi, hr⟩ := h
  obtain rfl := expandRow_fst hr
  exact List.mem_filter.mp hi

theorem mem_joinRows_intro {db : DB} {ids : List String} {i : ImageRow}
    {r : ImageRow × Option String} (hi : i ∈ db.images)
    (hin : ids.contains i.image_id = true) (hr : r ∈ expandRow db i) :
    r ∈ joinRows db ids := by
  rw [joinRows, mem_sortLe, List.mem_flatMap]
  exact ⟨i, List.mem_filter.mpr ⟨hi, hin⟩, hr⟩

theorem mem_innerRows {db : DB} {tags : Option (List String)}
    {cursor : Option String} {limit : Nat} {i : ImageRow}
    (h : i ∈ innerRows db tags cursor limit) :
    i ∈ db.images ∧ eligibleRow db tags cursor i = true := by
  rw [innerRows] at h
  have h1 := (List.take_sublist limit _).mem h
  rw [mem_sortLe] at h1
  exact ⟨List.mem_of_mem_filter h1, List.of_mem_filter h1⟩

/-- A list without duplicates whose members all lie in another list is no
longer than it. -/
theorem nodup_sub_length_le {l s : List String} (hn : l.Nodup)
    (hsub : ∀ x ∈ l, x ∈ s) : l.length ≤ s.length := by
  have h1 : l.toFinset.card = l.length := List.toFinset_card_of_nodup hn
  have h2 : l.toFinset ⊆ s.toFinset := by
    intro x hx
    rw [List.mem_toFinset] at hx ⊢
    exact hsub x hx
  have h3 : s.toFinset.card ≤ s.length := by
    rw [List.card_toFinset]
    exact (List.dedup_sublist s).length_le
  have h4 := Finset.card_le_card h2
  omega

theorem innerIds_length_le (db : DB) (tags : Option (List String))
    (cursor : Option String) (limit : Nat) :
    (innerIds db tags cursor limit).length ≤ limit := by
  rw [innerIds, List.length_map, innerRows]
  exact List.length_take_le limit _

/-- The page the repository returns never exceeds the requested limit. -/
theorem get_images_by_tag_length_le (db : DB) (limit : Nat)
    (tags : Option (List String)) (cursor : Option String) :
    (get_images_by_tag db limit tags cursor).length ≤ limit := by
  rw [get_images_by_tag]
  have hn : ((assembleRows (joinRows db (innerIds db tags cursor limit))).map
      (fun info => info.id)).Nodup :=
    foldl_addRow_nodup _ [] (by simp)
  have hsub : ∀ x ∈ (assembleRows (joinRows db (innerIds db tags cursor limit))).map
      (fun info => info.id), x ∈ innerIds db tags cursor limit := by
    intro x hx
    obtain ⟨info, hinfo, rfl⟩ := List.mem_map.mp hx
    rcases foldl_addRow_id_from _ [] hinfo with h | h
    · obtain ⟨i0, hi0, _⟩ := h
      exact absurd hi0 (List.not_mem_nil i0)
    · obtain ⟨r, hr, hid⟩ := h
      obtain ⟨_, hin⟩ := mem_joinRows_fst hr
      rw [← hid]
      exact List.elem_iff.mp hin
  have := nodup_sub_length_le hn hsub
  rw [List.length_map] at this
  exact this.trans (innerIds_length_le db tags cursor limit)

/-! ## Theorems: AND semantics of the tag filter -/

/-- An image passing the EXISTS/COUNT(DISTINCT) test carries every required
tag, provided the required list repeats no tag. -/
theorem qualifiesTags_sub {db : DB} {T : List String} {i : ImageRow}
    (hTd : T.Nodup) (hq : qualifiesTags db T i = true) :
    ∀ t ∈ T, t ∈ (tagsOf db i.image_id).map (fun x => x.tag) := by
  intro t ht
  rw [qualifiesTags] at hq
  rw [Bool.and_eq_true] at hq
  obtain ⟨-, hlen⟩ := hq
  replace hlen := beq_iff_eq.mp hlen
  set matching := (((tagsOf db i.image_id).filter
    (fun x => T.contains x.tag)).map (fun x => x.tag)) with hm
  have hsub : ∀ s ∈ matching, s ∈ T := by
    intro s hs
    obtain ⟨x, hx, rfl⟩ := List.mem_map.mp hs
    exact List.elem_iff.mp (List.mem_filter.mp hx).2
  have hfs : matching.toFinset ⊆ T.toFinset := by
    intro s hs
    rw [List.mem_toFinset] at hs ⊢
    exact hsub s hs
  have hcard : T.toFinset.card ≤ matching.toFinset.card := by
    rw [List.toFinset_card_of_nodup hTd, List.card_toFinset, hlen]
  have heq : matching.toFinset = T.toFinset := Finset.eq_of_subset_of_card_le hfs hcard
  have htm : t ∈ matching := by
    have h1 : t ∈ T.toFinset := List.mem_toFinset.mpr ht
    rw [← heq] at h1
    exact List.mem_toFinset.mp h1
  obtain ⟨x, hx, rfl⟩ := List.mem_map.mp htm
  exact List.mem_map_of_mem _ (List.mem_of_mem_filter hx)

/-- Every object the filtered query returns carries every required tag. -/
theorem query_requires_all_tags {db : DB} {limit : Nat} {cursor : Option String}
    {T : List String} (hT : T ≠ []) (hTd : T.Nodup)
    (hids : (db.images.map (fun i => i.image_id)).Nodup) :
    ∀ info ∈ get_images_by_tag db limit (some T) cursor, ∀ t ∈ T, t ∈ info.tags := by
  intro info hinfo t ht
  rw [get_images_by_tag] at hinfo
  set S := innerIds db (some T) cursor limit with hS
  -- the returned id comes from some joined row, hence from an image in S
  rcases foldl_addRow_id_from _ [] hinfo with h | h
  · obtain ⟨i0, hi0, _⟩ := h
    exact absurd hi0 (List.not_mem_nil i0)
  obtain ⟨r, hr, hid⟩ := h
  obtain ⟨hr1, hrin⟩ := mem_joinRows_fst hr
  -- the id in S comes from a row of the inner selection, which qualifies
  have hmemS : r.1.image_id ∈ S := List.elem_iff.mp hrin
  rw [hS, innerIds] at hmemS
  obtain ⟨i', hi', hideq⟩ := List.mem_map.mp hmemS
  obtain ⟨hi'mem, helig⟩ := mem_innerRows hi'
  -- the two rows with one id are one row
  have hii : i' = r.1 :=
    List.inj_on_of_nodup_map hids hi'mem hr1 hideq
  rw [eligibleRow, Bool.and_eq_true] at helig
  have hqual : qualifiesTags db T i' = true := by
    have hq1 := helig.1
    have hact : tagFilterActive (some T) = true := by
      rw [tagFilterActive]
      cases T with
      | nil => exact absurd rfl hT
      | cons x xs => simp
    rw [qualifies, hact] at hq1
    simpa using hq1
  -- the qualifying image carries t, so its joined rows include (i, some t)
  have htag : t ∈ (tagsOf db i'.image_id).map (fun x => x.tag) :=
    qualifiesTags_sub hTd hqual t ht
  have hrow : (i', some t) ∈ joinRows db S := by
    refine mem_joinRows_intro hi'mem ?_ (expandRow_mem_some htag)
    rw [hii]
    exact hrin
  -- that row loads t into the single entry that carries this id
  obtain ⟨info2, hinfo2, hid2, htags2⟩ := foldl_addRow_covers _ [] hrow
  have hnodup := foldl_addRow_nodup (joinRows db S) [] (by simp)
  have : info2 = info := by
    refine List.inj_on_of_nodup_map hnodup hinfo2 hinfo ?_
    rw [hid2, hii, hid]
  rw [← this]
  exact htags2 t rfl

/-- An empty required-tag list and an absent one run the identical query. -/
theorem query_empty_tags_eq (db : DB) (limit : Nat) (cursor : Option String) :
    get_images_by_tag db limit (some []) cursor
      = get_images_by_tag db limit none cursor := rfl

/-- Without a tag filter every stored object qualifies: with a large enough
limit and no cursor, every image appears in the page. -/
theorem query_no_filter_covers {db : DB} {limit : Nat}
    (hlim : db.images.length ≤ limit) :
    ∀ i ∈ db.images, ∃ info ∈ get_images_by_tag db limit none none,
      info.id = i.image_id := by
  intro i hi
  rw [get_images_by_tag]
  have hfilter : db.images.filter (eligibleRow db none none) = db.images := by
    rw [List.filter_eq_self]
    intro a _
    rfl
  have hinner : innerRows db none none limit = sortLe imageLeb db.images := by
    rw [innerRows, hfilter]
    refine List.take_of_length_le ?_
    rw [(sortLe_perm imageLeb db.images).length_eq]
    exact hlim
  have hmemS : i.image_id ∈ innerIds db none none limit := by
    rw [innerIds, hinner]
    exact List.mem_map_of_mem _ (mem_sortLe.mpr hi)
  obtain ⟨r, hr⟩ := List.exists_mem_of_ne_nil _ (expandRow_ne_nil db i)
  have hrow : r ∈ joinRows db (innerIds db none none limit) :=
    mem_joinRows_intro hi (List.elem_iff.mpr hmemS) hr
  obtain rfl := expandRow_fst hr
  obtain ⟨info, hinfo, hid, -⟩ := foldl_addRow_covers _ [] hrow
  exact ⟨info, hinfo, hid⟩

/-! ## Theorems: shape of the inner selection and the join -/

theorem pairwise_sortLe_of_pairwise {α : Type} {P : α → α → Prop}
    (hsymm : ∀ {x y}, P x y → P y x) {le : α → α → Bool} {l : List α}
    (h : l.Pairwise P) : (sortLe le l).Pairwise P :=
  ((sortLe_perm le l).pairwise_iff hsymm).mpr h

/-- Pairwise facts about the stored images descend to the inner selection. -/
theorem innerRows_pairwise {db : DB} {tags : Option (List String)}
    {cursor : Option String} {limit : Nat} {P : ImageRow → ImageRow → Prop}
    (hsymm : ∀ {x y}, P x y → P y x) (h : db.images.Pairwise P) :
    (innerRows db tags cursor limit).Pairwise P := by
  rw [innerRows]
  exact List.Pairwise.sublist (List.take_sublist _ _)
    (pairwise_sortLe_of_pairwise hsymm (List.Pairwise.sublist (List.filter_sublist _) h))

theorem innerRows_sorted (db : DB) (tags : Option (List String))
    (cursor : Option String) (limit : Nat) :
    (innerRows db tags cursor limit).Pairwise (fun a b => imageLeb a b = true) := by
  rw [innerRows]
  exact List.Pairwise.sublist (List.take_sublist _ _)
    (pairwise_sortLe imageLeb_total imageLeb_trans _)

theorem pairwise_names_of_nodup {db : DB}
    (hnames : (db.images.map (fun i => i.original_file_name)).Nodup) :
    db.images.Pairwise (fun a b => a.original_file_name ≠ b.original_file_name) :=
  List.pairwise_map.mp hnames

theorem pairwise_ids_of_nodup {db : DB}
    (hids : (db.images.map (fun i => i.image_id)).Nodup) :
    db.images.Pairwise (fun a b => a.image_id ≠ b.image_id) :=
  List.pairwise_map.mp hids

/-- With pairwise distinct names the inner selection is strictly sorted. -/
theorem innerRows_strict {db : DB} {tags : Option (List String)}
    {cursor : Option String} {limit : Nat}
    (hnames : (db.images.map (fun i => i.original_file_name)).Nodup) :
    (innerRows db tags cursor limit).Pairwise
      (fun a b => strLtb a.original_file_name b.original_file_name = true) := by
  have h1 := innerRows_sorted db tags cursor limit
  have h2 : (innerRows db tags cursor limit).Pairwise
      (fun a b => a.original_file_name ≠ b.original_file_name) :=
    innerRows_pairwise (fun {x y} h => h.symm) (pairwise_names_of_nodup hnames)
  refine (h1.and h2).imp ?_
  rintro a b ⟨hle, hne⟩
  rw [imageLeb, strLeb, Bool.not_eq_true'] at hle
  exact strLtb_of_ne_of_not hne hle

theorem images_nodup_rows {db : DB}
    (hids : (db.images.map (fun i => i.image_id)).Nodup) : db.images.Nodup :=
  (pairwise_ids_of_nodup hids).imp (fun h he => h (congrArg (fun i => i.image_id) he))

theorem innerRows_nodup {db : DB} {tags : Option (List String)}
    {cursor : Option String} {limit : Nat}
    (hids : (db.images.map (fun i => i.image_id)).Nodup) :
    (innerRows db tags cursor limit).Nodup :=
  innerRows_pairwise (fun {x y} h => h.symm) (images_nodup_rows hids)

/-- The outer WHERE ... IN clause recovers exactly the inner selection, as
a permutation. -/
theorem filter_inner_perm {db : DB} {tags : Option (List String)}
    {cursor : Option String} {limit : Nat}
    (hids : (db.images.map (fun i => i.image_id)).Nodup) :
    (db.images.filter
      (fun i => (innerIds db tags cursor limit).contains i.image_id)).Perm
      (innerRows db tags cursor limit) := by
  have hF : (db.images.filter
      (fun i => (innerIds db tags cursor limit).contains i.image_id)).Nodup :=
    (List.filter_sublist _).nodup (images_nodup_rows hids)
  have hT : (innerRows db tags cursor limit).Nodup := innerRows_nodup hids
  rw [List.perm_ext_iff_of_nodup hF hT]
  intro i
  constructor
  · intro hi
    obtain ⟨himem, hin⟩ := List.mem_filter.mp hi
    have : i.image_id ∈ innerIds db tags cursor limit := List.elem_iff.mp hin
    rw [innerIds] at this
    obtain ⟨i', hi', hideq⟩ := List.mem_map.mp this
    have : i' = i :=
      List.inj_on_of_nodup_map hids (mem_innerRows hi').1 himem hideq
    rw [← this]
    exact hi'
  · intro hi
    refine List.mem_filter.mpr ⟨(mem_innerRows hi).1, ?_⟩
    refine List.elem_iff.mpr ?_
    rw [innerIds]
    exact List.mem_map_of_mem _ hi

/-- All tag rows of one image carry that image id, and under the tags-table
PRIMARY KEY their labels repeat nowhere. -/
theorem tagsOf_labels_nodup {db : DB} (htags : db.tags.Nodup) (id : String) :
    ((tagsOf db id).map (fun t => t.tag)).Nodup := by
  refine List.Nodup.map_on ?_ ((List.filter_sublist _).nodup htags)
  intro x hx y hy hxy
  have hx1 : x.image_id = id := beq_iff_eq.mp (List.mem_filter.mp hx).2
  have hy1 : y.image_id = id := beq_iff_eq.mp (List.mem_filter.mp hy).2
  cases x
  cases y
  simp only at hx1 hy1 hxy
  rw [TagRow.mk.injEq]
  exact ⟨hx1.trans hy1.symm, hxy⟩

theorem rowLeb_same_some (i : ImageRow) (a b : String) :
    rowLeb (i, some a) (i, some b) = strLeb a b := by
  simp [rowLeb, strLtb_irrefl, optLeb]

/-- The sorted join group of one image: a single NULL row for an untagged
image, otherwise its labels in sorted order. -/
theorem sortedGroup_eq_of_nil {db : DB} {i : ImageRow}
    (h : tagsOf db i.image_id = []) : sortedGroup db i = [(i, none)] := by
  rw [sortedGroup, expandRow_eq_of_nil h]
  rfl

theorem sortedGroup_eq_of_ne {db : DB} {i : ImageRow}
    (h : tagsOf db i.image_id ≠ []) :
    sortedGroup db i = (imageLabels db i.image_id).map (fun s => (i, some s)) := by
  rw [sortedGroup, expandRow_eq_of_ne h]
  have hmm : (tagsOf db i.image_id).map (fun t => (i, some t.tag))
      = ((tagsOf db i.image_id).map (fun t => t.tag)).map (fun s => (i, some s)) := by
    rw [List.map_map]
    rfl
  rw [hmm, imageLabels]
  exact sortLe_map strLeb rowLeb (fun s => (i, some s))
    (fun a b => rowLeb_same_some i a b) _

theorem mem_sortedGroup_fst {db : DB} {i : ImageRow} {r : ImageRow × Option String}
    (h : r ∈ sortedGroup db i) : r.1 = i := by
  rw [sortedGroup, mem_sortLe] at h
  exact expandRow_fst h

/-- Within one image, the sorted join group is strictly increasing on the
tag column. -/
theorem sortedGroup_strict {db : DB} (htags : db.tags.Nodup) (i : ImageRow) :
    (sortedGroup db i).Pairwise (fun x y => rowLtb x y = true) := by
  have hsorted : (sortedGroup db i).Pairwise (fun x y => rowLeb x y = true) :=
    pairwise_sortLe rowLeb_total rowLeb_trans _
  have hsnd : (sortedGroup db i).Pairwise (fun x y => x.2 ≠ y.2) := by
    refine pairwise_sortLe_of_pairwise (fun {x y} h => h.symm) ?_
    cases hts : tagsOf db i.image_id with
    | nil =>
      rw [expandRow_eq_of_nil hts]
      exact List.pairwise_singleton _ _
    | cons t ts =>
      rw [expandRow_eq_of_ne (by rw [hts]; exact List.cons_ne_nil t ts)]
      have hlab : ((tagsOf db i.image_id).map (fun t => t.tag)).Nodup :=
        tagsOf_labels_nodup htags i.image_id
      have : (tagsOf db i.image_id).Pairwise (fun x y => x.tag ≠ y.tag) :=
        List.pairwise_map.mp hlab
      refine (List.pairwise_map.mpr (this.imp ?_))
      intro a b hab
      simp only [ne_eq, Option.some.injEq]
      exact hab
  exact (hsorted.and hsnd).imp
    (fun {x y} h => rowLtb_of_leb_of_keys_ne h.1 (Or.inr h.2))

/-- The grouped form of the joined rows: one block per selected image, in
selection order. -/
theorem joinRows_grouped {db : DB} {tags : Option (List String)}
    {cursor : Option String} {limit : Nat}
    (hids : (db.images.map (fun i => i.image_id)).Nodup)
    (hnames : (db.images.map (fun i => i.original_file_name)).Nodup)
    (htags : db.tags.Nodup) :
    joinRows db (innerIds db tags cursor limit)
      = (innerRows db tags cursor limit).flatMap (sortedGroup db) := by
  have hperm : (joinRows db (innerIds db tags cursor limit)).Perm
      ((innerRows db tags cursor limit).flatMap (sortedGroup db)) := by
    refine (sortLe_perm rowLeb _).trans ?_
    refine (List.Perm.flatMap_right (expandRow db) (filter_inner_perm hids)).trans ?_
    refine List.Perm.flatMap_left _ ?_
    intro i _
    exact (sortLe_perm rowLeb (expandRow db i)).symm
  -- the grouped form is strictly sorted
  have hcross : (innerRows db tags cursor limit).Pairwise
      (fun a b => ∀ x ∈ sortedGroup db a, ∀ y ∈ sortedGroup db b, rowLtb x y = true) := by
    refine (innerRows_strict hnames).imp ?_
    intro a b hab x hx y hy
    obtain rfl := mem_sortedGroup_fst hx
    obtain rfl := mem_sortedGroup_fst hy
    exact rowLtb_intro_lt hab
  have hR : ((innerRows db tags cursor limit).flatMap (sortedGroup db)).Pairwise
      (fun x y => rowLtb x y = true) :=
    List.pairwise_flatMap.mpr ⟨fun i _ => sortedGroup_strict htags i, hcross⟩
  -- the left side is sorted on the non-strict order...
  have hL : (joinRows db (innerIds db tags cursor limit)).Pairwise
      (fun x y => rowLeb x y = true) := by
    rw [joinRows]
    exact pairwise_sortLe rowLeb_total rowLeb_trans _
  -- ...and pairwise key-distinct, transported along the permutation
  have hKne : ((innerRows db tags cursor limit).flatMap (sortedGroup db)).Pairwise
      (fun x y => x.1.original_file_name ≠ y.1.original_file_name ∨ x.2 ≠ y.2) :=
    hR.imp (fun {x y} h => by
      rcases rowLtb_cases h with h1 | ⟨h1, h2⟩
      · refine Or.inl (fun he => ?_)
        rw [he, strLtb_irrefl] at h1
        exact Bool.noConfusion h1
      · refine Or.inr (fun he => ?_)
        rw [he] at h2
        cases hy : y.2 with
        | none => rw [hy] at h2; exact absurd h2 (by simp [optLtb])
        | some s =>
          rw [hy] at h2
          rw [show optLtb (some s) (some s) = strLtb s s from rfl, strLtb_irrefl] at h2
          exact Bool.noConfusion h2)
  have hLne : (joinRows db (innerIds db tags cursor limit)).Pairwise
      (fun x y => x.1.original_file_name ≠ y.1.original_file_name ∨ x.2 ≠ y.2) := by
    refine (hperm.pairwise_iff ?_).mpr hKne
    intro x y h
    rcases h with h | h
    · exact Or.inl h.symm
    · exact Or.inr h.symm
  have hLstrict : (joinRows db (innerIds db tags cursor limit)).Pairwise
      (fun x y => rowLtb x y = true) :=
    (hL.and hLne).imp (fun {x y} h => rowLtb_of_leb_of_keys_ne h.1 h.2)
  exact perm_pairwise_eq
    (fun x y h1 h2 => by rw [rowLtb_asymm h1] at h2; exact Bool.noConfusion h2)
    hperm hLstrict hR

/-! ## Theorems: assembling the grouped rows -/

theorem appendTag_skip {x t : String} {info : ImageInfo} (h : info.id ≠ x) :
    appendTag x t info = info := by
  simp [appendTag, beq_eq_false_iff_ne.mpr h]

theorem appendTag_hit (x t : String) (m : String) (fs : Nat) (n : String)
    (u : List String) :
    appendTag x t ⟨x, m, fs, n, u⟩ = ⟨x, m, fs, n, u ++ [t]⟩ := by
  simp [appendTag]

theorem map_appendTag_skip {x t : String} {acc : List ImageInfo}
    (h : ∀ info ∈ acc, info.id ≠ x) :
    acc.map (appendTag x t) = acc := by
  have h1 : acc.map (appendTag x t) = acc.map id :=
    List.map_congr_left (fun info hi => appendTag_skip (h info hi))
  rw [h1, List.map_id]

/-- One fold step over an existing entry room: appending a tag row to the
open entry. -/
theorem addRow_run_step {acc0 : List ImageInfo} {i : ImageRow} {u : List String}
    (s : String) (hnot : ∀ info ∈ acc0, info.id ≠ i.image_id) :
    addRow (acc0 ++ [⟨i.image_id, i.mime_type, i.file_size, i.original_file_name, u⟩])
        (i, some s)
      = acc0 ++ [⟨i.image_id, i.mime_type, i.file_size, i.original_file_name, u ++ [s]⟩] := by
  rw [addRow_some]
  have hany : (acc0 ++ [(⟨i.image_id, i.mime_type, i.file_size,
      i.original_file_name, u⟩ : ImageInfo)]).any
      (fun info => info.id == i.image_id) = true := by
    rw [List.any_eq_true]
    exact ⟨_, List.mem_append_right _ (List.mem_singleton_self _), beq_self_eq_true _⟩
  rw [ensureEntry, if_pos hany, List.map_append, map_appendTag_skip hnot]
  rw [List.map_cons, List.map_nil, appendTag_hit]

/-- Folding a run of same-image tag rows into the open entry collects the
labels in order. -/
theorem foldl_addRow_run (i : ImageRow) :
    ∀ (labels : List String) (acc0 : List ImageInfo) (u : List String),
    (∀ info ∈ acc0, info.id ≠ i.image_id) →
    ((labels.map (fun s => (i, some s))).foldl addRow
        (acc0 ++ [⟨i.image_id, i.mime_type, i.file_size, i.original_file_name, u⟩]))
      = acc0 ++ [⟨i.image_id, i.mime_type, i.file_size, i.original_file_name,
          u ++ labels⟩]
  | [], acc0, u, _ => by simp
  | s :: ls, acc0, u, hnot => by
    rw [List.map_cons, List.foldl_cons, addRow_run_step s hnot,
      foldl_addRow_run i ls acc0 (u ++ [s]) hnot, List.append_assoc,
      List.singleton_append]

/-- Folding one whole sorted group into an accumulator that has not seen
this image appends exactly its assembled view. -/
theorem foldl_addRow_group (db : DB) (i : ImageRow) (acc : List ImageInfo)
    (hnot : ∀ info ∈ acc, info.id ≠ i.image_id) :
    (sortedGroup db i).foldl addRow acc = acc ++ [imageInfoOf db i] := by
  have hany : acc.any (fun info => info.id == i.image_id) = false := by
    rw [List.any_eq_false]
    intro info hinfo hbeq
    exact hnot info hinfo (beq_iff_eq.mp hbeq)
  cases hts : tagsOf db i.image_id with
  | nil =>
    rw [sortedGroup_eq_of_nil hts]
    rw [List.foldl_cons, List.foldl_nil, addRow_none, ensureEntry,
      if_neg (by rw [hany]; exact Bool.noConfusion)]
    rw [imageInfoOf, imageLabels, hts]
    rfl
  | cons t0 ts0 =>
    have htne : tagsOf db i.image_id ≠ [] := by
      rw [hts]; exact List.cons_ne_nil t0 ts0
    rw [sortedGroup_eq_of_ne htne]
    have hlabne : imageLabels db i.image_id ≠ [] := by
      rw [imageLabels]
      intro hcon
      have := (sortLe_perm strLeb ((tagsOf db i.image_id).map (fun t => t.tag))).length_eq
      rw [hcon, hts] at this
      simp at this
    cases hlab : imageLabels db i.image_id with
    | nil => exact absurd hlab hlabne
    | cons s ls =>
      rw [List.map_cons, List.foldl_cons]
      have hstep : addRow acc (i, some s)
          = acc ++ [⟨i.image_id, i.mime_type, i.file_size, i.original_file_name, [s]⟩] := by
        rw [addRow_some, ensureEntry, if_neg (by rw [hany]; exact Bool.noConfusion)]
        rw [List.map_append, map_appendTag_skip hnot]
        rw [List.map_cons, List.map_nil]
        rw [show (baseInfo i) = (⟨i.image_id, i.mime_type, i.file_size,
          i.original_file_name, []⟩ : ImageInfo) from rfl, appendTag_hit]
        rfl
      rw [hstep, foldl_addRow_run i ls acc [s] hnot]
      rw [imageInfoOf, hlab]
      rfl

/-- Folding the concatenation of groups of pairwise distinct, unseen images
appends their views in order. -/
theorem foldl_addRow_groups (db : DB) :
    ∀ (G : List ImageRow) (acc : List ImageInfo),
    G.Pairwise (fun a b => a.image_id ≠ b.image_id) →
    (∀ i ∈ G, ∀ info ∈ acc, info.id ≠ i.image_id) →
    (G.flatMap (sortedGroup db)).foldl addRow acc = acc ++ G.map (imageInfoOf db)
  | [], acc, _, _ => by simp
  | i :: G1, acc, hpw, hnot => by
    rw [List.flatMap_cons, List.foldl_append,
      foldl_addRow_group db i acc (hnot i (List.mem_cons_self _ _))]
    rcases List.pairwise_cons.mp hpw with ⟨hhead, htail⟩
    rw [foldl_addRow_groups db G1 (acc ++ [imageInfoOf db i]) htail ?_]
    · rw [List.append_assoc, List.singleton_append, List.map_cons]
    · intro j hj info hinfo
      rcases List.mem_append.mp hinfo with h | h
      · exact hnot j (List.mem_cons_of_mem _ hj) info h
      · rw [List.mem_singleton.mp h]
        exact hhead j hj

/-- The master description of get_images_by_tag: under the schema PRIMARY
KEYs and pairwise distinct file names, the call returns exactly the inner
selection (qualifying rows above the cursor, by name, first limit), each
row assembled with its full sorted tag list. -/
theorem get_images_by_tag_eq_spec (db : DB) (limit : Nat)
    (tags : Option (List String)) (cursor : Option String)
    (hids : (db.images.map (fun i => i.image_id)).Nodup)
    (hnames : (db.images.map (fun i => i.original_file_name)).Nodup)
    (htags : db.tags.Nodup) :
    get_images_by_tag db limit tags cursor
      = (innerRows db tags cursor limit).map (imageInfoOf db) := by
  rw [get_images_by_tag, joinRows_grouped hids hnames htags, assembleRows]
  rw [foldl_addRow_groups db _ []
    (innerRows_pairwise (fun {x y} h => h.symm) (pairwise_ids_of_nodup hids))
    (fun i _ info hinfo => absurd hinfo (List.not_mem_nil info))]
  rw [List.nil_append]

/-! ## Theorems: pagination over the sorted qualifying set -/

theorem pairwise_strict_of_le_ne {l : List ImageRow}
    (h1 : l.Pairwise (fun a b => imageLeb a b = true))
    (h2 : l.Pairwise (fun a b => a.original_file_name ≠ b.original_file_name)) :
    l.Pairwise (fun a b => strLtb a.original_file_name b.original_file_name = true) := by
  refine (h1.and h2).imp ?_
  rintro a b ⟨hle, hne⟩
  rw [imageLeb, strLeb, Bool.not_eq_true'] at hle
  exact strLtb_of_ne_of_not hne hle

/-- Sorting commutes with filtering when the sort keys are pairwise
distinct. -/
theorem sortLe_filter_exchange {l : List ImageRow} (p : ImageRow → Bool)
    (hnames : l.Pairwise (fun a b => a.original_file_name ≠ b.original_file_name)) :
    sortLe imageLeb (l.filter p) = (sortLe imageLeb l).filter p := by
  have hperm : (sortLe imageLeb (l.filter p)).Perm ((sortLe imageLeb l).filter p) :=
    (sortLe_perm _ _).trans (((sortLe_perm imageLeb l).filter p).symm)
  have hnsymm : ∀ {x y : ImageRow}, x.original_file_name ≠ y.original_file_name →
      y.original_file_name ≠ x.original_file_name := fun h => h.symm
  have hL : (sortLe imageLeb (l.filter p)).Pairwise
      (fun a b => strLtb a.original_file_name b.original_file_name = true) :=
    pairwise_strict_of_le_ne (pairwise_sortLe imageLeb_total imageLeb_trans _)
      (pairwise_sortLe_of_pairwise hnsymm
        (List.Pairwise.sublist (List.filter_sublist l) hnames))
  have hRne : (sortLe imageLeb l).Pairwise
      (fun a b => a.original_file_name ≠ b.original_file_name) :=
    pairwise_sortLe_of_pairwise hnsymm hnames
  have hR : ((sortLe imageLeb l).filter p).Pairwise
      (fun a b => strLtb a.original_file_name b.original_file_name = true) :=
    List.Pairwise.sublist (List.filter_sublist _)
      (pairwise_strict_of_le_ne (pairwise_sortLe imageLeb_total imageLeb_trans _) hRne)
  exact perm_pairwise_eq
    (fun x y h1 h2 => by rw [strLtb_asymm h1] at h2; exact Bool.noConfusion h2)
    hperm hL hR

/-- On a strictly sorted list, keeping names above the j-th name keeps the
tail after position j. -/
theorem filter_gt_sorted_drop :
    ∀ (L : List ImageRow) (j : Nat),
    L.Pairwise (fun a b => strLtb a.original_file_name b.original_file_name = true) →
    j < L.length →
    L.filter (fun i =>
        strLtb (L.getD j default).original_file_name i.original_file_name)
      = L.drop (j + 1)
  | [], j, _, hj => absurd hj (by simp)
  | a :: L1, 0, hpw, _ => by
    rw [List.getD_cons_zero]
    rw [List.filter_cons]
    rw [strLtb_irrefl]
    simp only [Bool.false_eq_true, if_false]
    rw [List.drop_succ_cons, List.drop_zero]
    rw [List.filter_eq_self]
    intro x hx
    exact (List.pairwise_cons.mp hpw).1 x hx
  | a :: L1, j + 1, hpw, hj => by
    rw [List.getD_cons_succ]
    rcases List.pairwise_cons.mp hpw with ⟨hhead, htail⟩
    have hjlen : j < L1.length := by
      simp only [List.length_cons] at hj
      omega
    have hmem : L1.getD j default ∈ L1 := by
      rw [List.getD_eq_getElem _ _ hjlen]
      exact List.getElem_mem _
    rw [List.filter_cons]
    rw [strLtb_asymm (hhead _ hmem)]
    simp only [Bool.false_eq_true, if_false]
    rw [List.drop_succ_cons]
    exact filter_gt_sorted_drop L1 j htail hjlen

theorem qualifyingSorted_strict {db : DB} (tags : Option (List String))
    (hnames : (db.images.map (fun i => i.original_file_name)).Nodup) :
    (qualifyingSorted db tags).Pairwise
      (fun a b => strLtb a.original_file_name b.original_file_name = true) := by
  rw [qualifyingSorted]
  refine pairwise_strict_of_le_ne (pairwise_sortLe imageLeb_total imageLeb_trans _) ?_
  exact pairwise_sortLe_of_pairwise (fun {x y} h => h.symm)
    (List.Pairwise.sublist (List.filter_sublist _) (pairwise_names_of_nodup hnames))

theorem mem_qualifyingSorted {db : DB} {tags : Option (List String)} {i : ImageRow}
    (h : i ∈ qualifyingSorted db tags) : i ∈ db.images := by
  rw [qualifyingSorted, mem_sortLe] at h
  exact List.mem_of_mem_filter h

/-- The inner selection factors through the cursor filter on the full
sorted qualifying set. -/
theorem innerRows_factor {db : DB} (tags : Option (List String))
    (cursor : Option String) (limit : Nat)
    (hnames : (db.images.map (fun i => i.original_file_name)).Nodup) :
    innerRows db tags cursor limit
      = ((qualifyingSorted db tags).filter (cursorOk cursor)).take limit := by
  rw [innerRows, qualifyingSorted]
  have h1 : db.images.filter (eligibleRow db tags cursor)
      = (db.images.filter (qualifies db tags)).filter (cursorOk cursor) := by
    rw [List.filter_filter]
    refine (List.filter_congr ?_).symm
    intro i _
    rw [eligibleRow, Bool.and_comm]
  rw [h1]
  rw [sortLe_filter_exchange (cursorOk cursor)
    (List.Pairwise.sublist (List.filter_sublist _) (pairwise_names_of_nodup hnames))]

theorem normalizeCursor_some_ne {c : String} (h : c ≠ "") :
    normalizeCursor (some c) = some c := by
  rw [normalizeCursor, if_neg]
  intro hbeq
  exact h (beq_iff_eq.mp hbeq)

/-- Unfolding of get_images_info once page_size passed validation. -/
theorem get_images_info_eq (db : DB) (N : Nat) (tags : Option (List String))
    (c : Option String) (hN1 : 1 ≤ N) (hN100 : N ≤ 100) :
    get_images_info db N tags c
      = (if N < (get_images_by_tag db (N + 1) (normalizeTags tags)
            (normalizeCursor c)).length then
          Except.ok
            { items := (get_images_by_tag db (N + 1) (normalizeTags tags)
                (normalizeCursor c)).take N
              next_cursor := some (((get_images_by_tag db (N + 1)
                (normalizeTags tags) (normalizeCursor c)).getD (N - 1)
                default).original_filename)
              page_size := N
              has_more := true }
        else
          Except.ok
            { items := get_images_by_tag db (N + 1) (normalizeTags tags)
                (normalizeCursor c)
              next_cursor := none
              page_size := N
              has_more := false }) := by
  have hval : ¬ (N < 1 || 100 < N) = true := by
    simp only [Bool.or_eq_true, decide_eq_true_eq]
    omega
  rw [get_images_info, if_neg hval]

/-- The page served at a cursor that resumes at position k of the sorted
qualifying set. -/
theorem get_images_info_drop {db : DB} {tags : Option (List String)}
    {N k : Nat} {c : Option String}
    (hN1 : 1 ≤ N) (hN100 : N ≤ 100)
    (hids : (db.images.map (fun i => i.image_id)).Nodup)
    (hnames : (db.images.map (fun i => i.original_file_name)).Nodup)
    (htags : db.tags.Nodup)
    (hc : (qualifyingSorted db (normalizeTags tags)).filter
        (cursorOk (normalizeCursor c))
      = (qualifyingSorted db (normalizeTags tags)).drop k) :
    get_images_info db N tags c
      = (if N < (qualifyingSorted db (normalizeTags tags)).length - k then
          Except.ok
            { items := (((qualifyingSorted db (normalizeTags tags)).drop k).take N).map
                (imageInfoOf db)
              next_cursor := some (((qualifyingSorted db (normalizeTags tags)).getD
                (k + N - 1) default).original_file_name)
              page_size := N
              has_more := true }
        else
          Except.ok
            { items := ((qualifyingSorted db (normalizeTags tags)).drop k).map
                (imageInfoOf db)
              next_cursor := none
              page_size := N
              has_more := false }) := by
  rw [get_images_info_eq db N tags c hN1 hN100]
  have hmaster : get_images_by_tag db (N + 1) (normalizeTags tags) (normalizeCursor c)
      = (((qualifyingSorted db (normalizeTags tags)).drop k).take (N + 1)).map
        (imageInfoOf db) := by
    rw [get_images_by_tag_eq_spec db (N + 1) _ _ hids hnames htags,
      innerRows_factor _ _ _ hnames, hc]
  rw [hmaster]
  have hlen : ((((qualifyingSorted db (normalizeTags tags)).drop k).take (N + 1)).map
      (imageInfoOf db)).length
      = min (N + 1) ((qualifyingSorted db (normalizeTags tags)).length - k) := by
    rw [List.length_map, List.length_take, List.length_drop]
  by_cases hmore : N < (qualifyingSorted db (normalizeTags tags)).length - k
  · rw [if_pos (by rw [hlen]; omega), if_pos hmore]
    have hkN : k + N - 1 < (qualifyingSorted db (normalizeTags tags)).length := by
      omega
    have hitems : ((((qualifyingSorted db (normalizeTags tags)).drop k).take
        (N + 1)).map (imageInfoOf db)).take N
        = (((qualifyingSorted db (normalizeTags tags)).drop k).take N).map
          (imageInfoOf db) := by
      rw [← List.map_take, List.take_take]
      have : min N (N + 1) = N := by omega
      rw [this]
    have hcursor : (((((qualifyingSorted db (normalizeTags tags)).drop k).take
        (N + 1)).map (imageInfoOf db)).getD (N - 1) default).original_filename
        = ((qualifyingSorted db (normalizeTags tags)).getD (k + N - 1)
          default).original_file_name := by
      rw [List.getD_eq_getElem?_getD, List.getD_eq_getElem?_getD]
      rw [List.getElem?_map, List.getElem?_take, if_pos (by omega : N - 1 < N + 1)]
      rw [List.getElem?_drop]
      have hix : k + (N - 1) = k + N - 1 := by omega
      rw [hix]
      rw [List.getElem?_eq_getElem hkN]
      rfl
    rw [hitems, hcursor]
  · rw [if_neg (by rw [hlen]; omega), if_neg hmore]
    have htake : ((qualifyingSorted db (normalizeTags tags)).drop k).take (N + 1)
        = (qualifyingSorted db (normalizeTags tags)).drop k := by
      refine List.take_of_length_le ?_
      rw [List.length_drop]
      omega
    rw [htake]

/-- Full traversal of the paging loop, resuming at position k: with enough
fuel it emits ceil(remaining / N) pages that concatenate to exactly the
remaining suffix, has_more on all but the last, and a final page with
has_more false and no cursor. -/
theorem iterate_pages_spec {db : DB} {tags : Option (List String)} {N : Nat}
    (hN1 : 1 ≤ N) (hN100 : N ≤ 100)
    (hids : (db.images.map (fun i => i.image_id)).Nodup)
    (hnames : (db.images.map (fun i => i.original_file_name)).Nodup)
    (htags : db.tags.Nodup)
    (hne : ∀ i ∈ db.images, i.original_file_name ≠ "") :
    ∀ (fuel k : Nat) (c : Option String),
    k < (qualifyingSorted db (normalizeTags tags)).length →
    ((qualifyingSorted db (normalizeTags tags)).length - k + N - 1) / N ≤ fuel →
    (qualifyingSorted db (normalizeTags tags)).filter (cursorOk (normalizeCursor c))
      = (qualifyingSorted db (normalizeTags tags)).drop k →
    (iterate_pages db N tags fuel c).length
        = ((qualifyingSorted db (normalizeTags tags)).length - k + N - 1) / N
    ∧ (iterate_pages db N tags fuel c).flatMap (fun p => p.items)
        = ((qualifyingSorted db (normalizeTags tags)).drop k).map (imageInfoOf db)
    ∧ (∀ p ∈ (iterate_pages db N tags fuel c).dropLast, p.has_more = true)
    ∧ (∃ last, (iterate_pages db N tags fuel c).getLast? = some last
        ∧ last.has_more = false ∧ last.next_cursor = none) := by
  have hN0 : 0 < N := hN1
  intro fuel
  induction fuel with
  | zero =>
    intro k c hk hfuel _
    exfalso
    have h1 : 1 ≤ ((qualifyingSorted db (normalizeTags tags)).length - k + N - 1) / N := by
      rw [Nat.le_div_iff_mul_le hN0]
      omega
    omega
  | succ f ih =>
    intro k c hk hfuel hc
    by_cases hmore : N < (qualifyingSorted db (normalizeTags tags)).length - k
    · -- a full page, then recurse on the emitted cursor
      have hkN : k + N - 1 < (qualifyingSorted db (normalizeTags tags)).length := by
        omega
      have hiter : iterate_pages db N tags (f + 1) c
          = { items := (((qualifyingSorted db (normalizeTags tags)).drop k).take N).map
                (imageInfoOf db)
              next_cursor := some (((qualifyingSorted db (normalizeTags tags)).getD
                (k + N - 1) default).original_file_name)
              page_size := N
              has_more := true }
            :: iterate_pages db N tags f
              (some (((qualifyingSorted db (normalizeTags tags)).getD
                (k + N - 1) default).original_file_name)) := by
        rw [iterate_pages, get_images_info_drop hN1 hN100 hids hnames htags hc,
          if_pos hmore]
        rfl
      have hmemL : (qualifyingSorted db (normalizeTags tags)).getD (k + N - 1) default
          ∈ qualifyingSorted db (normalizeTags tags) := by
        rw [List.getD_eq_getElem _ _ hkN]
        exact List.getElem_mem _
      have hnmne : ((qualifyingSorted db (normalizeTags tags)).getD
          (k + N - 1) default).original_file_name ≠ "" :=
        hne _ (mem_qualifyingSorted hmemL)
      have hc2 : (qualifyingSorted db (normalizeTags tags)).filter
          (cursorOk (normalizeCursor (some (((qualifyingSorted db
            (normalizeTags tags)).getD (k + N - 1) default).original_file_name))))
          = (qualifyingSorted db (normalizeTags tags)).drop (k + N) := by
        rw [normalizeCursor_some_ne hnmne]
        have hpt : (qualifyingSorted db (normalizeTags tags)).filter
            (cursorOk (some (((qualifyingSorted db (normalizeTags tags)).getD
              (k + N - 1) default).original_file_name)))
            = (qualifyingSorted db (normalizeTags tags)).filter
              (fun i => strLtb (((qualifyingSorted db (normalizeTags tags)).getD
                (k + N - 1) default).original_file_name) i.original_file_name) :=
          List.filter_congr (fun i _ => rfl)
        rw [hpt, filter_gt_sorted_drop _ (k + N - 1)
          (qualifyingSorted_strict _ hnames) hkN]
        have : k + N - 1 + 1 = k + N := by omega
        rw [this]
      have hdiv1 : ((qualifyingSorted db (normalizeTags tags)).length - k + N - 1) / N
          = ((qualifyingSorted db (normalizeTags tags)).length - k - 1) / N + 1 := by
        have e1 : (qualifyingSorted db (normalizeTags tags)).length - k + N - 1
            = ((qualifyingSorted db (normalizeTags tags)).length - k - 1) + N := by
          omega
        rw [e1, Nat.add_div_right _ hN0]
      have hdiv2 : ((qualifyingSorted db (normalizeTags tags)).length - (k + N) + N - 1) / N
          = ((qualifyingSorted db (normalizeTags tags)).length - k - 1) / N := by
        have e2 : (qualifyingSorted db (normalizeTags tags)).length - (k + N) + N - 1
            = (qualifyingSorted db (normalizeTags tags)).length - k - 1 := by
          omega
        rw [e2]
      obtain ⟨ihlen, ihflat, ihmid, last, ihlast, ihlastmore, ihlastcur⟩ :=
        ih (k + N)
          (some (((qualifyingSorted db (normalizeTags tags)).getD
            (k + N - 1) default).original_file_name))
          (by omega) (by omega) hc2
      have hrestne : iterate_pages db N tags f
          (some (((qualifyingSorted db (normalizeTags tags)).getD
            (k + N - 1) default).original_file_name)) ≠ [] := by
        intro hnil
        rw [hnil] at ihlast
        exact Option.noConfusion ihlast
      refine ⟨?_, ?_, ?_, ?_⟩
      · rw [hiter, List.length_cons, ihlen, hdiv1, hdiv2]
      · rw [hiter, List.flatMap_cons, ihflat]
        rw [← List.map_append]
        have : ((qualifyingSorted db (normalizeTags tags)).drop k).take N
            ++ (qualifyingSorted db (normalizeTags tags)).drop (k + N)
            = (qualifyingSorted db (normalizeTags tags)).drop k := by
          have hdd : (qualifyingSorted db (normalizeTags tags)).drop (k + N)
              = ((qualifyingSorted db (normalizeTags tags)).drop k).drop N := by
            rw [List.drop_drop]
          rw [hdd, List.take_append_drop]
        rw [this]
      · rw [hiter, List.dropLast_cons_of_ne_nil hrestne]
        intro p hp
        rcases List.mem_cons.mp hp with rfl | hp
        · rfl
        · exact ihmid p hp
      · refine ⟨last, ?_, ihlastmore, ihlastcur⟩
        rw [hiter, List.getLast?_cons, ihlast]
        rfl
    · -- the final, short page
      have hiter : iterate_pages db N tags (f + 1) c
          = [{ items := ((qualifyingSorted db (normalizeTags tags)).drop k).map
                (imageInfoOf db)
               next_cursor := none
               page_size := N
               has_more := false }] := by
        rw [iterate_pages, get_images_info_drop hN1 hN100 hids hnames htags hc,
          if_neg hmore]
        rfl
      refine ⟨?_, ?_, ?_, ?_⟩
      · rw [hiter]
        have : ((qualifyingSorted db (normalizeTags tags)).length - k + N - 1) / N = 1 := by
          have hlo : 1 * N ≤ (qualifyingSorted db (normalizeTags tags)).length - k + N - 1 := by
            omega
          have hhi : (qualifyingSorted db (normalizeTags tags)).length - k + N - 1
              < (1 + 1) * N := by
            omega
          exact Nat.div_eq_of_lt_le hlo hhi
        rw [this]
        rfl
      · rw [hiter]
        simp
      · rw [hiter]
        intro p hp
        simp at hp
      · rw [hiter]
        exact ⟨_, rfl, rfl, rfl⟩

/-! ## Claim theorems -/

/-- C1: for every byte stream, ingesting it twice yields the same object id
both times (the second call returns the identical view, id included), and
the second identical ingestion leaves stored state unchanged: the database
is untouched (so object and tag row counts are unchanged), the blob list
and blob-write counter are untouched (the stored blob is not rewritten),
the thumbnail store is untouched, and the derivation counter is untouched
(thumbnail derivation is not invoked again). -/
theorem claim_C1_second_ingestion_dedups {sha1 : List Nat → String}
    {tf1 tf2 : Bool} {st st1 : SysState} {ct name : String}
    {chunks : List (List Nat)} {info1 : ImageInfo}
    (h1 : upload_image sha1 tf1 st ct name chunks = (st1, Except.ok info1)) :
    (upload_image sha1 tf2 st1 ct name chunks).2 = Except.ok info1
    ∧ (upload_image sha1 tf2 st1 ct name chunks).1.db = st1.db
    ∧ (upload_image sha1 tf2 st1 ct name chunks).1.fs.uploads = st1.fs.uploads
    ∧ (upload_image sha1 tf2 st1 ct name chunks).1.fs.blobWrites = st1.fs.blobWrites
    ∧ (upload_image sha1 tf2 st1 ct name chunks).1.fs.thumbnails = st1.fs.thumbnails
    ∧ (upload_image sha1 tf2 st1 ct name chunks).1.thumbCalls = st1.thumbCalls := by
  rw [upload_again h1]
  exact ⟨rfl, rfl, rfl, rfl, rfl, rfl⟩

theorem claim_C1_witness :
    (upload_image wsha false wst1 "image/png" "f" [[1]]).2 = Except.ok winfo
    ∧ (upload_image wsha false wst1 "image/png" "f" [[1]]).1.db = wst1.db
    ∧ (upload_image wsha false wst1 "image/png" "f" [[1]]).1.fs.uploads
      = wst1.fs.uploads
    ∧ (upload_image wsha false wst1 "image/png" "f" [[1]]).1.fs.blobWrites
      = wst1.fs.blobWrites
    ∧ (upload_image wsha false wst1 "image/png" "f" [[1]]).1.fs.thumbnails
      = wst1.fs.thumbnails
    ∧ (upload_image wsha false wst1 "image/png" "f" [[1]]).1.thumbCalls
      = wst1.thumbCalls :=
  claim_C1_second_ingestion_dedups
    (show upload_image wsha false wst0 "image/png" "f" [[1]]
      = (wst1, Except.ok winfo) from rfl)

/-- C8: when the cumulative bytes read first exceed MAX_FILE_SIZE at chunk
j with more chunks still unread, the call aborts with the 413 TooLarge
error, the system state is returned unchanged (staging file removed, no
blob and no metadata written), and the streaming loop performed exactly
j + 1 reads — strictly fewer than the stream offers, so the rest of the
stream is not consumed. -/
theorem claim_C8_too_large_aborts_midstream {sha1 : List Nat → String}
    {tf : Bool} {st : SysState} {ct name : String} {chunks : List (List Nat)}
    {j : Nat}
    (hct : ALLOWED_MIME_TYPES.contains ct = true)
    (hne : ∀ m, m ≤ j → chunks.getD m [] ≠ [])
    (hmin : ∀ m, m < j → chunkPrefixSize chunks (m + 1) ≤ MAX_FILE_SIZE)
    (hover : MAX_FILE_SIZE < chunkPrefixSize chunks (j + 1))
    (hrest : j + 1 < chunks.length) :
    upload_image sha1 tf st ct name chunks = (st, Except.error HttpError.tooLarge)
    ∧ readChunks chunks 0 0 [] = Except.error (j + 1)
    ∧ j + 1 < chunks.length := by
  have hread : readChunks chunks 0 0 [] = Except.error (j + 1) := by
    have h := readChunks_overflow chunks j 0 0 [] hne
      (fun m hm => by rw [Nat.zero_add]; exact hmin m hm)
      (by rw [Nat.zero_add]; exact hover)
    rw [Nat.zero_add] at h
    exact h
  exact ⟨upload_shape_toolarge hct hread, hread, hrest⟩

theorem claim_C8_witness :
    upload_image wsha false wst0 "image/png" "f"
        [List.replicate (MAX_FILE_SIZE + 1) 0, [1]]
      = (wst0, Except.error HttpError.tooLarge)
    ∧ readChunks [List.replicate (MAX_FILE_SIZE + 1) 0, [1]] 0 0 []
      = Except.error (0 + 1)
    ∧ 0 + 1 < ([List.replicate (MAX_FILE_SIZE + 1) 0, [1]] : List (List Nat)).length :=
  claim_C8_too_large_aborts_midstream (by decide)
    (fun m hm => by
      obtain rfl : m = 0 := Nat.le_zero.mp hm
      intro hcon
      have hlen : (List.replicate (MAX_FILE_SIZE + 1) (0 : Nat)).length
          = MAX_FILE_SIZE + 1 := List.length_replicate _ _
      rw [show ([List.replicate (MAX_FILE_SIZE + 1) 0,
        [1]] : List (List Nat)).getD 0 [] = List.replicate (MAX_FILE_SIZE + 1) 0
        from rfl] at hcon
      rw [hcon] at hlen
      exact absurd hlen.symm (Nat.succ_ne_zero _))
    (fun m hm => absurd hm (Nat.not_lt_zero m))
    (by
      rw [chunkPrefixSize]
      rw [show List.take 1 [List.replicate (MAX_FILE_SIZE + 1) (0 : Nat), [1]]
        = [List.replicate (MAX_FILE_SIZE + 1) 0] from rfl]
      rw [List.map_cons, List.map_nil, List.length_replicate]
      rw [List.sum_cons, List.sum_nil]
      omega)
    (by
      rw [show ([List.replicate (MAX_FILE_SIZE + 1) 0,
        [1]] : List (List Nat)).length = 2 from rfl]
      omega)

/-- C9: on first-sight ingestion, a failure inside thumbnail derivation is
caught and swallowed: whether derivation fails or not, upload_image still
returns the Object view successfully, the metadata row is registered and
stays, the blob is present, derivation was invoked exactly once, and when
it failed no thumbnail exists — a valid final state. -/
theorem claim_C9_thumbnail_failure_isolated {sha1 : List Nat → String}
    {st : SysState} {ct name : String} {chunks : List (List Nat)}
    {data : List Nat} {size k : Nat} (tf : Bool)
    (hct : ALLOWED_MIME_TYPES.contains ct = true)
    (hread : readChunks chunks 0 0 [] = Except.ok (data, size, k))
    (hnew : image_exists st.db (sha1 data) = false) :
    ∃ st1, upload_image sha1 tf st ct name chunks
        = (st1, Except.ok ⟨sha1 data, ct, size, name, []⟩)
      ∧ st1.db = { st.db with images :=
          st.db.images ++ [⟨sha1 data, ct, size, name⟩] }
      ∧ image_exists st1.db (sha1 data) = true
      ∧ st1.fs.uploads.contains (sha1 data) = true
      ∧ st1.thumbCalls = st.thumbCalls + 1
      ∧ (tf = true → st1.fs.thumbnails = st.fs.thumbnails) := by
  cases hblob : st.fs.uploads.contains (sha1 data) with
  | true =>
    refine ⟨_, upload_shape_orphan hct hread hblob hnew, ?_, ?_, ?_, ?_, ?_⟩
    · rw [generate_thumbnail_db]
    · rw [generate_thumbnail_db]
      exact image_exists_append_self st.db ⟨sha1 data, ct, size, name⟩
    · rw [generate_thumbnail_uploads]
      exact hblob
    · rw [generate_thumbnail_calls]
    · intro htf
      subst htf
      rw [generate_thumbnail_failed]
  | false =>
    refine ⟨_, upload_shape_first hct hread hblob hnew, ?_, ?_, ?_, ?_, ?_⟩
    · rw [generate_thumbnail_db]
    · rw [generate_thumbnail_db]
      exact image_exists_append_self st.db ⟨sha1 data, ct, size, name⟩
    · rw [generate_thumbnail_uploads]
      simp [List.elem_iff]
    · rw [generate_thumbnail_calls]
    · intro htf
      subst htf
      rw [generate_thumbnail_failed]

theorem claim_C9_witness :
    ∃ st1, upload_image wsha true wst0 "image/png" "f" [[1]]
        = (st1, Except.ok ⟨wsha [1], "image/png", 1, "f", []⟩)
      ∧ st1.db = { wst0.db with images :=
          wst0.db.images ++ [⟨wsha [1], "image/png", 1, "f"⟩] }
      ∧ image_exists st1.db (wsha [1]) = true
      ∧ st1.fs.uploads.contains (wsha [1]) = true
      ∧ st1.thumbCalls = wst0.thumbCalls + 1
      ∧ (true = true → st1.fs.thumbnails = wst0.fs.thumbnails) :=
  claim_C9_thumbnail_failure_isolated true (by rfl) (by rfl) (by rfl)

/-- C10: ingesting content whose blob already sits at the final path (and
whose row is registered — a duplicate upload) succeeds, and the staging
temp file is neither moved nor deleted: the post state equals the pre state
except that the count of staging files left behind grows by one — the only
file-system change of the call. -/
theorem claim_C10_duplicate_upload_leaks_staging {sha1 : List Nat → String}
    {tf : Bool} {st : SysState} {ct name : String} {chunks : List (List Nat)}
    {data : List Nat} {size k : Nat}
    (hct : ALLOWED_MIME_TYPES.contains ct = true)
    (hread : readChunks chunks 0 0 [] = Except.ok (data, size, k))
    (hblob : st.fs.uploads.contains (sha1 data) = true)
    (hex : image_exists st.db (sha1 data) = true) :
    upload_image sha1 tf st ct name chunks
      = ({ st with fs := { st.fs with tmpOrphans := st.fs.tmpOrphans + 1 } },
         Except.ok ⟨sha1 data, ct, size, name, []⟩) :=
  upload_shape_dedup hct hread hblob hex

theorem claim_C10_witness :
    upload_image wsha false wst1 "image/jpeg" "g" [[1]]
      = ({ wst1 with fs := { wst1.fs with tmpOrphans := wst1.fs.tmpOrphans + 1 } },
         Except.ok ⟨wsha [1], "image/jpeg", 1, "g", []⟩) :=
  claim_C10_duplicate_upload_leaks_staging (by decide) (by rfl) (by rfl) (by rfl)

/-- C6: the claim — and the invariant the schema itself declares with its
FOREIGN KEY — require add_tag on a nonexistent object to fail with
NotFound and write no row. The repository inserts with no existence check,
and get_db_connection never issues PRAGMA foreign_keys = ON, so SQLite does
not enforce the declared constraint on the connections the repository
uses: on an empty database the call succeeds and writes an orphan tag row
referencing a nonexistent object. -/
theorem claim_C6_orphan_tag_written :
    image_exists ⟨[], []⟩ "deadbeef" = false
    ∧ add_image_tag ⟨[], []⟩ "deadbeef" "x" = ⟨[], [⟨"deadbeef", "x"⟩]⟩
    ∧ (add_image_tag ⟨[], []⟩ "deadbeef" "x").tags.length = 1 :=
  ⟨rfl, rfl, rfl⟩

/-- C7 as stated is false on the code: save_image runs an unconditional
INSERT into images, so registering an id that is already present hits the
PRIMARY KEY and raises an IntegrityError instead of succeeding as a no-op.
Concrete run of save_image on an id already registered. -/
theorem claim_C7_counterexample :
    save_image ⟨[⟨"a", "image/png", 1, "n"⟩], []⟩ "a" "image/png" 1 "n" []
      = Except.error SqlError.integrityViolation := rfl

/-- C7 (amended): registering metadata for an id already present in the
index raises the unique-constraint IntegrityError — it is not an
insert-if-absent and does not degrade to a no-op; at-most-once registration
is instead ensured by the caller (upload_image checks image_exists before
calling save_image). -/
theorem claim_C7_amended_duplicate_insert_raises {db : DB}
    {image_id mt name : String} {size : Nat} {tags : List String}
    (h : image_exists db image_id = true) :
    save_image db image_id mt size name tags
      = Except.error SqlError.integrityViolation := by
  simp only [save_image, insertImageRow_eq, h, if_true]
  rfl

theorem claim_C7_amended_witness :
    save_image ⟨[⟨"b", "image/gif", 7, "m"⟩], [⟨"b", "z"⟩]⟩ "b" "image/jpeg" 9 "q"
        ["t1", "t2"]
      = Except.error SqlError.integrityViolation :=
  claim_C7_amended_duplicate_insert_raises (by rfl)

/-- C2: with a non-empty required-tag set T (no repeated labels; the images
PRIMARY KEY as Nodup hypothesis), every object the query returns carries
all labels of T — none missing any label of T is ever returned, extra tags
being allowed; with T empty or absent the tag filter is inactive (the two
calls coincide) and every stored object qualifies: given room, every image
appears. -/
theorem claim_C2_and_filter {db : DB} {limit : Nat} {cursor : Option String}
    {T : List String} (hT : T ≠ []) (hTd : T.Nodup)
    (hids : (db.images.map (fun i => i.image_id)).Nodup) :
    (∀ info ∈ get_images_by_tag db limit (some T) cursor, ∀ t ∈ T, t ∈ info.tags)
    ∧ get_images_by_tag db limit (some []) cursor
      = get_images_by_tag db limit none cursor
    ∧ (db.images.length ≤ limit →
        ∀ i ∈ db.images, ∃ info ∈ get_images_by_tag db limit none none,
          info.id = i.image_id) :=
  ⟨query_requires_all_tags hT hTd hids,
   query_empty_tags_eq db limit cursor,
   fun hlim => query_no_filter_covers hlim⟩

theorem claim_C2_witness :
    (∀ info ∈ get_images_by_tag wdb 10 (some ["x", "y"]) none,
      ∀ t ∈ ["x", "y"], t ∈ info.tags)
    ∧ get_images_by_tag wdb 10 (some []) none = get_images_by_tag wdb 10 none none
    ∧ (wdb.images.length ≤ 10 →
        ∀ i ∈ wdb.images, ∃ info ∈ get_images_by_tag wdb 10 none none,
          info.id = i.image_id) :=
  claim_C2_and_filter (by decide) (by decide) (by decide)

/-- C4: a page request of size N (valid per the service's own 1..100 check)
queries the index with limit N + 1; when N + 1 results come back it
delivers only the first N, sets has_more, and sets next_cursor to the
original_name of the last delivered item (the N-th); otherwise it delivers
everything with has_more false and next_cursor none. -/
theorem claim_C4_probe_page {db : DB} {tags : Option (List String)}
    {cursor : Option String} {N : Nat} (hN1 : 1 ≤ N) (hN100 : N ≤ 100) :
    ∃ page, get_images_info db N tags cursor = Except.ok page
      ∧ (get_images_by_tag db (N + 1) (normalizeTags tags)
          (normalizeCursor cursor)).length ≤ N + 1
      ∧ ((get_images_by_tag db (N + 1) (normalizeTags tags)
            (normalizeCursor cursor)).length = N + 1 →
          page.items = (get_images_by_tag db (N + 1) (normalizeTags tags)
              (normalizeCursor cursor)).take N
          ∧ page.items.length = N
          ∧ page.has_more = true
          ∧ page.next_cursor = page.items.getLast?.map
              (fun info => info.original_filename))
      ∧ ((get_images_by_tag db (N + 1) (normalizeTags tags)
            (normalizeCursor cursor)).length ≤ N →
          page.items = get_images_by_tag db (N + 1) (normalizeTags tags)
            (normalizeCursor cursor)
          ∧ page.has_more = false
          ∧ page.next_cursor = none) := by
  have hlen := get_images_by_tag_length_le db (N + 1) (normalizeTags tags)
    (normalizeCursor cursor)
  rw [get_images_info_eq db N tags cursor hN1 hN100]
  by_cases hmore : N < (get_images_by_tag db (N + 1) (normalizeTags tags)
      (normalizeCursor cursor)).length
  · rw [if_pos hmore]
    refine ⟨_, rfl, hlen, ?_, ?_⟩
    · intro hlenEq
      refine ⟨rfl, ?_, rfl, ?_⟩
      · rw [List.length_take, hlenEq]
        omega
      · rw [List.getLast?_eq_getElem?, List.length_take]
        have hmin : N ⊓ (get_images_by_tag db (N + 1) (normalizeTags tags)
            (normalizeCursor cursor)).length = N := by
          omega
        rw [hmin, List.getElem?_take, if_pos (by omega : N - 1 < N)]
        rw [List.getD_eq_getElem?_getD]
        cases hsome : (get_images_by_tag db (N + 1) (normalizeTags tags)
            (normalizeCursor cursor))[N - 1]? with
        | none =>
          rw [List.getElem?_eq_none_iff] at hsome
          omega
        | some x => rfl
    · intro hle
      exact absurd hmore (by omega)
  · rw [if_neg hmore]
    refine ⟨_, rfl, hlen, ?_, ?_⟩
    · intro hlenEq
      exact absurd hmore (by omega)
    · intro _
      exact ⟨rfl, rfl, rfl⟩

theorem claim_C4_witness :
    ∃ page, get_images_info wdb 1 none none = Except.ok page
      ∧ (get_images_by_tag wdb (1 + 1) (normalizeTags none)
          (normalizeCursor none)).length ≤ 1 + 1
      ∧ ((get_images_by_tag wdb (1 + 1) (normalizeTags none)
            (normalizeCursor none)).length = 1 + 1 →
          page.items = (get_images_by_tag wdb (1 + 1) (normalizeTags none)
              (normalizeCursor none)).take 1
          ∧ page.items.length = 1
          ∧ page.has_more = true
          ∧ page.next_cursor = page.items.getLast?.map
              (fun info => info.original_filename))
      ∧ ((get_images_by_tag wdb (1 + 1) (normalizeTags none)
            (normalizeCursor none)).length ≤ 1 →
          page.items = get_images_by_tag wdb (1 + 1) (normalizeTags none)
            (normalizeCursor none)
          ∧ page.has_more = false
          ∧ page.next_cursor = none) :=
  claim_C4_probe_page (by decide) (by decide)

/-- C5: under the schema PRIMARY KEYs and pairwise distinct names, the page
the repository returns consists exactly of the qualifying objects whose
original_name strictly exceeds the cursor (no lower bound when the cursor
is none, per cursorOk), ordered ascending by original_name and truncated
to the first limit ids — the id sequence equals filter, sort, take on the
stored images, and the returned list is sorted by name. -/
theorem claim_C5_page_contents {db : DB} {limit : Nat}
    {tags : Option (List String)} {cursor : Option String}
    (hids : (db.images.map (fun i => i.image_id)).Nodup)
    (hnames : (db.images.map (fun i => i.original_file_name)).Nodup)
    (htags : db.tags.Nodup) :
    (get_images_by_tag db limit tags cursor).map (fun info => info.id)
      = ((sortLe imageLeb (db.images.filter (eligibleRow db tags cursor))).take
          limit).map (fun i => i.image_id)
    ∧ (get_images_by_tag db limit tags cursor).Pairwise
        (fun a b => strLeb a.original_filename b.original_filename = true) := by
  constructor
  · rw [get_images_by_tag_eq_spec db limit tags cursor hids hnames htags,
      List.map_map, innerRows]
    rfl
  · rw [get_images_by_tag_eq_spec db limit tags cursor hids hnames htags,
      List.pairwise_map]
    exact (innerRows_sorted db tags cursor limit).imp (fun {a b} h => h)

theorem claim_C5_witness :
    (get_images_by_tag wdb 2 (some ["x"]) none).map (fun info => info.id)
      = ((sortLe imageLeb (wdb.images.filter (eligibleRow wdb (some ["x"])
          none))).take 2).map (fun i => i.image_id)
    ∧ (get_images_by_tag wdb 2 (some ["x"]) none).Pairwise
        (fun a b => strLeb a.original_filename b.original_filename = true) :=
  claim_C5_page_contents (by decide) (by decide) (by decide)

/-- C3 as stated fails on duplicate names: ddb holds two qualifying objects
that share original_name "n". Paging with page size 1 from a none cursor
yields two pages, but their items cover only object "a": the cursor "n"
excludes the second object with the same name, so the union does not
contain every qualifying object. -/
theorem claim_C3_counterexample :
    ((iterate_pages ddb 1 none 2 none).flatMap (fun p => p.items)).map
        (fun info => info.id) = ["a"]
    ∧ ddb.images.map (fun i => i.image_id) = ["a", "b"]
    ∧ qualifies ddb (normalizeTags none) ⟨"b", "m", 1, "n"⟩ = true
    ∧ (iterate_pages ddb 1 none 2 none).length = 2 :=
  ⟨by decide, by decide, by decide, by decide⟩

/-- C3 (amended): for qualifying objects with pairwise distinct nonempty
original_names (and the schema PRIMARY KEYs), iterating get_images_info
with page size N from a none cursor, passing each next_cursor back
unmodified, yields exactly ceil(M/N) pages whose items concatenate to the
full qualifying set in order — every qualifying object exactly once — with
has_more true on every page but the last, and the last page carrying
has_more false and next_cursor none. -/
theorem claim_C3_amended_full_traversal {db : DB} {tags : Option (List String)}
    {N : Nat} (hN1 : 1 ≤ N) (hN100 : N ≤ 100)
    (hids : (db.images.map (fun i => i.image_id)).Nodup)
    (hnames : (db.images.map (fun i => i.original_file_name)).Nodup)
    (htags : db.tags.Nodup)
    (hne0 : ∀ i ∈ db.images, i.original_file_name ≠ "")
    (hM : N < (qualifyingSorted db (normalizeTags tags)).length) :
    (qualifyingSorted db (normalizeTags tags)).Perm
        (db.images.filter (qualifies db (normalizeTags tags)))
    ∧ (iterate_pages db N tags (qualifyingSorted db (normalizeTags tags)).length
        none).length
      = ((qualifyingSorted db (normalizeTags tags)).length + N - 1) / N
    ∧ (iterate_pages db N tags (qualifyingSorted db (normalizeTags tags)).length
        none).flatMap (fun p => p.items)
      = (qualifyingSorted db (normalizeTags tags)).map (imageInfoOf db)
    ∧ (∀ p ∈ (iterate_pages db N tags
        (qualifyingSorted db (normalizeTags tags)).length none).dropLast,
        p.has_more = true)
    ∧ (∃ last, (iterate_pages db N tags
          (qualifyingSorted db (normalizeTags tags)).length none).getLast?
        = some last ∧ last.has_more = false ∧ last.next_cursor = none) := by
  have hN0 : 0 < N := hN1
  have hk0 : 0 < (qualifyingSorted db (normalizeTags tags)).length := by omega
  have hfuel : ((qualifyingSorted db (normalizeTags tags)).length - 0 + N - 1) / N
      ≤ (qualifyingSorted db (normalizeTags tags)).length := by
    rw [Nat.sub_zero]
    have h2 : (qualifyingSorted db (normalizeTags tags)).length
        ≤ N * (qualifyingSorted db (normalizeTags tags)).length :=
      Nat.le_mul_of_pos_left _ hN0
    have h1 : (qualifyingSorted db (normalizeTags tags)).length + N - 1
        ≤ N * (qualifyingSorted db (normalizeTags tags)).length + (N - 1) := by
      omega
    have h3 : ((qualifyingSorted db (normalizeTags tags)).length + N - 1) / N
        ≤ (N * (qualifyingSorted db (normalizeTags tags)).length + (N - 1)) / N :=
      Nat.div_le_div_right h1
    have h4 : (N * (qualifyingSorted db (normalizeTags tags)).length + (N - 1)) / N
        = (qualifyingSorted db (normalizeTags tags)).length + (N - 1) / N :=
      Nat.mul_add_div hN0 _ _
    have h5 : (N - 1) / N = 0 := Nat.div_eq_of_lt (by omega)
    omega
  have hcnone : (qualifyingSorted db (normalizeTags tags)).filter
      (cursorOk (normalizeCursor none))
      = (qualifyingSorted db (normalizeTags tags)).drop 0 := by
    rw [List.drop_zero]
    exact List.filter_eq_self.mpr (fun a _ => rfl)
  obtain ⟨hlen, hflat, hmid, hlast⟩ := iterate_pages_spec hN1 hN100 hids hnames
    htags hne0 (qualifyingSorted db (normalizeTags tags)).length 0 none hk0
    hfuel hcnone
  refine ⟨sortLe_perm imageLeb _, ?_, ?_, hmid, hlast⟩
  · rw [hlen, Nat.sub_zero]
  · rw [hflat, List.drop_zero]

theorem claim_C3_witness :
    (qualifyingSorted wdb (normalizeTags none)).Perm
        (wdb.images.filter (qualifies wdb (normalizeTags none)))
    ∧ (iterate_pages wdb 1 none (qualifyingSorted wdb (normalizeTags none)).length
        none).length
      = ((qualifyingSorted wdb (normalizeTags none)).length + 1 - 1) / 1
    ∧ (iterate_pages wdb 1 none (qualifyingSorted wdb (normalizeTags none)).length
        none).flatMap (fun p => p.items)
      = (qualifyingSorted wdb (normalizeTags none)).map (imageInfoOf wdb)
    ∧ (∀ p ∈ (iterate_pages wdb 1 none
        (qualifyingSorted wdb (normalizeTags none)).length none).dropLast,
        p.has_more = true)
    ∧ (∃ last, (iterate_pages wdb 1 none
          (qualifyingSorted wdb (normalizeTags none)).length none).getLast?
        = some last ∧ last.has_more = false ∧ last.next_cursor = none) :=
  claim_C3_amended_full_traversal (by decide) (by decide) (by decide) (by decide)
    (by decide) (by decide) (by decide)

end TagSoup
